import Mathlib

/-!
# cozy-stack `pkg/vfs/vfs.go`: a shallow embedding and its verified properties

The embedding follows `src/pkg/vfs/vfs.go`.

* Go strings are modelled by Lean `String`s read as lists of characters. Every
  character the code inspects (`/`, `;`, `.`, NUL, CR, LF) is ASCII, so the
  byte-level and the character-level reading agree on valid UTF-8 input.
* The Go packages `strings`, `unicode`, `os` and `path` are modelled from their
  documentation; `path.Clean` is the fold over the elements of the path that
  its four documented rules describe.
* The `VFS` interface is a record of functions over an abstract backend state:
  lookups and iterators read the state, mutations return a new state. Every call
  made through the interface is appended to a trace kept in the `World`. A pair
  of results of which one is an error is an `Except`; a pair of a directory and a
  file pointer of which one is `nil` is a sum.
* An iterator is the finite list of the results of its `Next()` calls. The visit
  callback of `Walk` has a state of its own and does not change the backend.
* Loops and recursions that the Go code does not bound (`MkdirAll`, `walk`) take
  a fuel argument and return `none` when it runs out.
* Functions and types of the package that are declared outside `vfs.go` are either
  parameters (`Outside`) or modelled from the specification, and say so.
-/

namespace CozyVfs

/-! ## Go standard library: `strings`, `unicode`, `os`, `path` -/

namespace strings

/-- Go `strings.HasPrefix`. -/
def HasPrefix (s pre : String) : Bool :=
  pre.data.isPrefixOf s.data

/-- Go `strings.TrimPrefix`: `s` without the leading `pre`, or `s` itself. -/
def TrimPrefix (s pre : String) : String :=
  if HasPrefix s pre then ⟨s.data.drop pre.data.length⟩ else s

/-- Search loop of `Index`: `i` is the offset of the remaining input. -/
def indexFrom (sub : List Char) : List Char → Nat → Int
  | [], i => if sub = [] then (i : Int) else -1
  | c :: cs, i => if sub.isPrefixOf (c :: cs) then (i : Int) else indexFrom sub cs (i + 1)

/-- Go `strings.Index`: offset of the first occurrence of `sub` in `s`, or `-1`. -/
def Index (s sub : String) : Int :=
  indexFrom sub.data s.data 0

/-- Go `strings.ContainsAny`: some character of `s` occurs in `chars`. -/
def ContainsAny (s chars : String) : Bool :=
  s.data.any (fun c => chars.data.contains c)

/-- Go `unicode.IsSpace`: the characters with the Unicode White_Space property. -/
def IsSpace (c : Char) : Bool :=
  let n := c.toNat
  (9 ≤ n && n ≤ 13) || n = 32 || n = 133 || n = 160 || n = 5760 ||
  (8192 ≤ n && n ≤ 8202) || n = 8232 || n = 8233 || n = 8239 || n = 8287 || n = 12288

/-- Go `strings.TrimSpace`. -/
def TrimSpace (s : String) : String :=
  ⟨((s.data.dropWhile IsSpace).reverse.dropWhile IsSpace).reverse⟩

/-- Go slice expression `s[:n]`. -/
def sliceTo (s : String) (n : Int) : String :=
  ⟨s.data.take n.toNat⟩

/-- Go slice expression `s[n:]`. -/
def sliceFrom (s : String) (n : Int) : String :=
  ⟨s.data.drop n.toNat⟩

end strings

namespace path

/-- The elements of a path: the maximal runs between slashes. -/
def splitSlash : List Char → List (List Char)
  | [] => [[]]
  | c :: cs =>
    if c = '/' then [] :: splitSlash cs
    else
      match splitSlash cs with
      | [] => [[c]]
      | h :: t => (c :: h) :: t

/-- Elements written one after the other with a slash in between. -/
def joinSlash : List (List Char) → List Char
  | [] => []
  | [x] => x
  | x :: y :: rest => x ++ '/' :: joinSlash (y :: rest)

/-- One element read by `Clean`. `out` holds the elements kept so far, the last
one first. Empty elements and `.` are dropped; `..` removes the last kept
element when there is one that is not itself `..`, is dropped at the root of a
rooted path, and is kept otherwise. -/
def cleanStep (rooted : Bool) (out : List (List Char)) (seg : List Char) : List (List Char) :=
  if seg = [] ∨ seg = ['.'] then out
  else if seg = ['.', '.'] then
    match out with
    | [] => if rooted then [] else [seg]
    | top :: rest =>
      if top ≠ ['.', '.'] then rest
      else if rooted then out
      else seg :: out
  else seg :: out

/-- Go `path.Clean`: the shortest path name equivalent to `p` by purely lexical
processing. -/
def Clean (p : String) : String :=
  if p.data = [] then "."
  else
    let rooted : Bool := p.data.head? = some '/'
    let out := (splitSlash p.data).foldl (cleanStep rooted) []
    let body := joinSlash out.reverse
    if rooted then ⟨'/' :: body⟩
    else if body = [] then "."
    else ⟨body⟩

/-- Go `path.Split`: the path up to and including the final slash, and the rest. -/
def Split (p : String) : String × String :=
  let r := p.data.reverse
  (⟨(r.dropWhile (fun c => c ≠ '/')).reverse⟩, ⟨(r.takeWhile (fun c => c ≠ '/')).reverse⟩)

/-- Go `path.Dir`: all but the last element of the path, cleaned. -/
def Dir (p : String) : String :=
  Clean (Split p).1

/-- Go `path.Base`: the last element of the path, trailing slashes removed. -/
def Base (p : String) : String :=
  if p.data = [] then "."
  else
    let r := p.data.reverse.dropWhile (fun c => c = '/')
    let last := (r.takeWhile (fun c => c ≠ '/')).reverse
    if last = [] then "/" else ⟨last⟩

/-- Go `path.Join`: the non-empty elements joined by slashes, cleaned; the empty
string when every element is empty. -/
def Join (elem : List String) : String :=
  let kept := elem.filter (fun e => e.data ≠ [])
  if kept = [] then "" else Clean ⟨joinSlash (kept.map String.data)⟩

/-- Go `path.Ext`: the suffix of the last element starting at its final dot. -/
def Ext (p : String) : String :=
  let last := p.data.reverse.takeWhile (fun c => c ≠ '/')
  if last.contains '.' then ⟨'.' :: (last.takeWhile (fun c => c ≠ '.')).reverse⟩ else ""

end path

/-! ## Errors -/

/-- The error values the package returns or inspects. `backend code notExist` is
any error raised by an `Indexer` or `Fs` implementation; `notExist` tells whether
`os.IsNotExist` holds of it. -/
inductive Error where
  | ErrNotExist
  | ErrInvalid
  | ErrSkipDir
  | ErrIteratorDone
  | ErrParentDoesNotExist
  | ErrDirNotEmpty
  | ErrIllegalFilename
  | ErrIllegalTime
  | ErrFileNotInTrash
  | backend (code : Nat) (notExist : Bool)
  deriving DecidableEq, Repr

namespace os

/-- Go `os.IsNotExist`. -/
def IsNotExist : Error → Bool
  | .ErrNotExist => true
  | .backend _ b => b
  | _ => false

/-- Go `os.O_RDONLY` (linux). -/
def O_RDONLY : Nat := 0
/-- Go `os.O_WRONLY` (linux). -/
def O_WRONLY : Nat := 1
/-- Go `os.O_RDWR` (linux). -/
def O_RDWR : Nat := 2
/-- Go `os.O_APPEND` (linux). -/
def O_APPEND : Nat := 1024
/-- Go `os.O_CREATE` (linux). -/
def O_CREATE : Nat := 64
/-- Go `os.O_EXCL` (linux). -/
def O_EXCL : Nat := 128

/-- Go `flag & mask` on a 64-bit `int`: the bits of the two's complement
representation of `flag` that `mask` selects. -/
def band (flag : Int) (mask : Nat) : Nat :=
  (flag % 2 ^ 64).toNat &&& mask

end os

/-! ## Constants of the package -/

/-- DefaultContentType is used for files uploaded with no content-type. -/
def DefaultContentType : String := "application/octet-stream"

/-- ForbiddenFilenameChars is the list of forbidden characters in a filename:
slash, NUL, LF, CR. -/
def ForbiddenFilenameChars : String := ⟨['/', Char.ofNat 0, '\n', '\r']⟩

/-- TrashDirName is the path of the trash directory. -/
def TrashDirName : String := "/.cozy_trash"

/-! ## Naming utilities -/

/-- Go `checkFileName`: `nil` (`none`) for a legal name. -/
def checkFileName (str : String) : Option Error :=
  if str.data = [] ∨ strings.ContainsAny str ForbiddenFilenameChars then
    some Error.ErrIllegalFilename
  else none

/-- Search state of `uniqueTags`: `m` is the set of tags seen, `clone` the result
so far. -/
def uniqueTagsLoop : List String → List String → List String → List String
  | [], _, clone => clone
  | tag :: rest, m, clone =>
    let tag := strings.TrimSpace tag
    if tag.data = [] then uniqueTagsLoop rest m clone
    else if tag ∈ m then uniqueTagsLoop rest m clone
    else uniqueTagsLoop rest (tag :: m) (clone ++ [tag])

/-- Go `uniqueTags`. -/
def uniqueTags (tags : List String) : List String :=
  uniqueTagsLoop tags [] []

/-- Go `ExtractMimeAndClass`: the mime and class of a content type. -/
def ExtractMimeAndClass (contentType : String) : String × String :=
  let contentType := if contentType.data = [] then DefaultContentType else contentType
  let charsetIndex := strings.Index contentType ";"
  let mime := if charsetIndex ≥ 0 then strings.sliceTo contentType charsetIndex else contentType
  let slashIndex := strings.Index contentType "/"
  let cls := if slashIndex ≥ 0 then strings.sliceTo contentType slashIndex else contentType
  (mime, cls)

/-- Go `ExtractMimeAndClassFromFilename`. `TypeByExtension` is the system MIME
table of Go `mime.TypeByExtension`. -/
def ExtractMimeAndClassFromFilename (TypeByExtension : String → String) (name : String) :
    String × String :=
  ExtractMimeAndClass (TypeByExtension (path.Ext name))

/-! ## Document model -/

/-- Instants; only their order matters. -/
abbrev Time := Int

/-- File metadata extracted from the content. -/
abbrev Metadata := List (String × String)

/-- Modelled from the spec: the `consts.DirType` discriminator, declared outside
`vfs.go`. -/
def consts.DirType : String := "directory"

/-- Modelled from the spec: the `consts.FileType` discriminator, declared outside
`vfs.go`. -/
def consts.FileType : String := "file"

/-- Modelled from the spec: the `DirDoc` type is declared outside `vfs.go`; these
are the fields `Refine` and `getRestoreDir` read, and the materialized path of
section 3 of the specification. `DocType` is the Go field `Type`. -/
structure DirDoc where
  DocType : String
  DocID : String
  DocRev : String
  DocName : String
  DirID : String
  RestorePath : String
  CreatedAt : Time
  UpdatedAt : Time
  Tags : List String
  Fullpath : String
  deriving DecidableEq, Repr

/-- Modelled from the spec: the `FileDoc` type is declared outside `vfs.go`; these
are the fields `Refine` fills. `DocType` is the Go field `Type`. -/
structure FileDoc where
  DocType : String
  DocID : String
  DocRev : String
  DocName : String
  DirID : String
  RestorePath : String
  CreatedAt : Time
  UpdatedAt : Time
  ByteSize : Int
  MD5Sum : List Nat
  Mime : String
  Class : String
  Executable : Bool
  Tags : List String
  Metadata : Metadata
  deriving DecidableEq, Repr

/-- Modelled from the spec: the method `ID()` of a `DirDoc`, its unique
identifier. -/
def DirDoc.ID (d : DirDoc) : String := d.DocID

/-- Go `DocPatch`: a `nil` pointer field is `none`. -/
structure DocPatch where
  Name : Option String
  DirID : Option String
  RestorePath : Option String
  Tags : Option (List String)
  UpdatedAt : Option Time
  Executable : Option Bool
  deriving DecidableEq, Repr

/-- Go `DirOrFileDoc`: a `DirDoc` with the fields a `FileDoc` adds. -/
structure DirOrFileDoc where
  toDirDoc : DirDoc
  ByteSize : Int
  MD5Sum : List Nat
  Mime : String
  Class : String
  Executable : Bool
  Metadata : Metadata
  deriving DecidableEq, Repr

/-- Go `(*DirOrFileDoc).Refine`. -/
def DirOrFileDoc.Refine (fd : DirOrFileDoc) : Option DirDoc × Option FileDoc :=
  if fd.toDirDoc.DocType = consts.DirType then (some fd.toDirDoc, none)
  else if fd.toDirDoc.DocType = consts.FileType then
    (none, some {
      DocType := fd.toDirDoc.DocType
      DocID := fd.toDirDoc.DocID
      DocRev := fd.toDirDoc.DocRev
      DocName := fd.toDirDoc.DocName
      DirID := fd.toDirDoc.DirID
      RestorePath := fd.toDirDoc.RestorePath
      CreatedAt := fd.toDirDoc.CreatedAt
      UpdatedAt := fd.toDirDoc.UpdatedAt
      ByteSize := fd.ByteSize
      MD5Sum := fd.MD5Sum
      Mime := fd.Mime
      Class := fd.Class
      Executable := fd.Executable
      Tags := fd.toDirDoc.Tags
      Metadata := fd.Metadata })
  else (none, none)

/-- Modelled from the spec: `NewDirDocWithParent` is defined outside `vfs.go`. It
validates the name with `checkFileName` and builds a directory document parented
under `parent`, with the materialized path below the parent's and both
timestamps set to the current time `now`. -/
def NewDirDocWithParent (now : Time) (name : String) (parent : DirDoc) (tags : List String) :
    Except Error DirDoc :=
  match checkFileName name with
  | some err => .error err
  | none =>
    .ok {
      DocType := consts.DirType
      DocID := ""
      DocRev := ""
      DocName := name
      DirID := parent.ID
      RestorePath := ""
      CreatedAt := now
      UpdatedAt := now
      Tags := uniqueTags tags
      Fullpath := path.Join [parent.Fullpath, name] }

/-- Modelled from the spec: `NewFileDoc` is defined outside `vfs.go`. It validates
the name with `checkFileName` and builds a file document from its arguments. -/
def NewFileDoc (name dirID : String) (size : Int) (md5Sum : List Nat) (mime cls : String)
    (cdate : Time) (executable : Bool) (tags : List String) : Except Error FileDoc :=
  match checkFileName name with
  | some err => .error err
  | none =>
    .ok {
      DocType := consts.FileType
      DocID := ""
      DocRev := ""
      DocName := name
      DirID := dirID
      RestorePath := ""
      CreatedAt := cdate
      UpdatedAt := cdate
      ByteSize := size
      MD5Sum := md5Sum
      Mime := mime
      Class := cls
      Executable := executable
      Tags := uniqueTags tags
      Metadata := [] }

/-- Go `normalizeDocPatch`. The result is `none` when the code dereferences a
`nil` pointer: `patch.UpdatedAt.Before(cdate)` with no `UpdatedAt` in the patch
nor in the current document `data`. -/
def normalizeDocPatch (data patch : DocPatch) (cdate : Time) : Option (Except Error DocPatch) :=
  let patch := if patch.DirID = none then { patch with DirID := data.DirID } else patch
  let patch :=
    if patch.RestorePath = none then { patch with RestorePath := data.RestorePath } else patch
  let patch := if patch.Name = none then { patch with Name := data.Name } else patch
  let patch := if patch.Tags = none then { patch with Tags := data.Tags } else patch
  let patch := if patch.UpdatedAt = none then { patch with UpdatedAt := data.UpdatedAt } else patch
  match patch.UpdatedAt with
  | none => none
  | some u =>
    if u < cdate then some (.error Error.ErrIllegalTime)
    else
      let patch :=
        if patch.Executable = none then { patch with Executable := data.Executable } else patch
      some (.ok patch)

/-- The first occurrence of each value of a list, in the order of the list. -/
def keepFirst : List String → List String
  | [] => []
  | x :: xs => x :: (keepFirst xs).filter (fun y => y ≠ x)

/-- The reference for `uniqueTags`, in the words of the specification: trim the
whitespace around each tag, drop the tags that are then empty, and keep the
first occurrence of each remaining value. -/
def uniqueTagsRef (tags : List String) : List String :=
  keepFirst ((tags.map strings.TrimSpace).filter (fun t => t ≠ ""))

/-! ## The `VFS` capability and the world an operation runs in -/

/-- A file handle returned by the backend. -/
abbrev File := Nat

/-- A directory or a file document: the pair of pointers of which exactly one is
not `nil`. -/
abbrev Node := DirDoc ⊕ FileDoc

/-- The name of a node document. -/
def Node.DocName : Node → String
  | .inl d => d.DocName
  | .inr f => f.DocName

/-- The directory pointer of a node (`nil` for a file). -/
def Node.dir : Node → Option DirDoc
  | .inl d => some d
  | .inr _ => none

/-- The file pointer of a node (`nil` for a directory). -/
def Node.file : Node → Option FileDoc
  | .inl _ => none
  | .inr f => some f

/-- Go interfaces `Indexer` and `Fs`, restricted to the methods `vfs.go` calls,
over a backend state `σ`. Lookups read the state; `DirIterator` gives the results
of the successive `Next()` calls, followed by `ErrIteratorDone`. `CreateDir`
receives a pointer and may complete the document (identifier, revision): it
returns the document as the backend left it. -/
structure VFS (σ : Type) where
  DirByPath : σ → String → Except Error DirDoc
  FileByPath : σ → String → Except Error FileDoc
  DirOrFileByPath : σ → String → Except Error Node
  DirIterator : σ → DirDoc → List (Except Error Node)
  OpenFile : σ → FileDoc → Except Error File
  CreateDir : σ → DirDoc → Except Error DirDoc × σ
  CreateFile : σ → FileDoc → Option FileDoc → Except Error File × σ
  DestroyDirAndContent : σ → DirDoc → Option Error × σ
  DestroyFile : σ → FileDoc → Option Error × σ

/-- A call made by an operation: the methods of `Indexer` and `Fs`, and the
functions of the package defined outside `vfs.go` (`IsEmpty`,
`ModifyDirMetadata`, `ModifyFileMetadata`). -/
inductive Call where
  | DirByPath (name : String)
  | FileByPath (name : String)
  | DirOrFileByPath (name : String)
  | DirIterator (doc : DirDoc)
  | OpenFile (doc : FileDoc)
  | CreateDir (doc : DirDoc)
  | CreateFile (newdoc : FileDoc) (olddoc : Option FileDoc)
  | DestroyDirAndContent (doc : DirDoc)
  | DestroyFile (doc : FileDoc)
  | IsEmpty (doc : DirDoc)
  | ModifyDirMetadata (olddoc : DirDoc) (patch : DocPatch)
  | ModifyFileMetadata (olddoc : FileDoc) (patch : DocPatch)
  deriving DecidableEq, Repr

/-- What an operation runs in: the backend state, the calls made so far, and the
number of times the clock has been read. -/
structure World (σ : Type) where
  st : σ
  trace : List Call
  ticks : Nat

/-- The world after one more call. -/
def World.log {σ : Type} (w : World σ) (c : Call) : World σ :=
  { w with trace := w.trace ++ [c] }

/-- Go `time.Now()`: the next reading of the clock. -/
def World.now {σ : Type} (clock : Nat → Time) (w : World σ) : Time × World σ :=
  (clock w.ticks, { w with ticks := w.ticks + 1 })

/-- A `CreateDir` call. -/
def Call.isCreateDir : Call → Bool
  | .CreateDir _ => true
  | _ => false

/-- Functions of the package that `vfs.go` calls and that are defined outside it,
taken as parameters: the emptiness probe `(*DirDoc).IsEmpty`, a read of the
index, and the two metadata updates. -/
structure Outside (σ : Type) where
  IsEmpty : σ → DirDoc → Except Error Bool
  ModifyDirMetadata : σ → DirDoc → DocPatch → Except Error DirDoc × σ
  ModifyFileMetadata : σ → FileDoc → DocPatch → Except Error FileDoc × σ

/-! ## Tree engine -/

section Engine

variable {σ : Type}

/-- Go `Stat`. -/
def Stat (fs : VFS σ) (w : World σ) (name : String) : Except Error Node × World σ :=
  (fs.DirOrFileByPath w.st name, w.log (.DirOrFileByPath name))

/-- The end of `OpenFile` on the create-or-update path, from the choice of the
parent identifier on: `dirID` is the identifier found so far, `olddoc` the
existing document. -/
def OpenFile.build (fs : VFS σ) (TypeByExtension : String → String) (clock : Nat → Time)
    (w : World σ) (name dirID : String) (olddoc : Option FileDoc) :
    Except Error File × World σ :=
  let dirID := match olddoc with
    | some o => o.DirID
    | none => dirID
  if dirID = "" then (.error Error.ErrInvalid, w)
  else
    let filename := path.Base name
    let exec := false
    let mc := ExtractMimeAndClassFromFilename TypeByExtension filename
    let (now, w1) := w.now clock
    match NewFileDoc filename dirID (-1) [] mc.1 mc.2 now exec [] with
    | .error err => (.error err, w1)
    | .ok newdoc =>
      let r := fs.CreateFile w1.st newdoc olddoc
      (r.1, { (w1.log (.CreateFile newdoc olddoc)) with st := r.2 })

/-- Go `OpenFile`. `perm` is not used by the code. -/
def OpenFile (fs : VFS σ) (TypeByExtension : String → String) (clock : Nat → Time)
    (w : World σ) (name : String) (flag : Int) (perm : Nat) : Except Error File × World σ :=
  if os.band flag os.O_RDWR ≠ 0 ∨ os.band flag os.O_APPEND ≠ 0 then
    (.error Error.ErrInvalid, w)
  else if os.band flag os.O_CREATE ≠ 0 ∧ os.band flag os.O_EXCL = 0 then
    (.error Error.ErrInvalid, w)
  else
    let name := path.Clean name
    let w1 := w.log (.FileByPath name)
    if flag = (os.O_RDONLY : Int) then
      match fs.FileByPath w.st name with
      | .error err => (.error err, w1)
      | .ok doc => (fs.OpenFile w1.st doc, w1.log (.OpenFile doc))
    else
      match fs.FileByPath w.st name with
      | .ok olddoc => OpenFile.build fs TypeByExtension clock w1 name "" (some olddoc)
      | .error err =>
        if os.IsNotExist err ∧ os.band flag os.O_CREATE ≠ 0 then
          let w2 := w1.log (.DirByPath (path.Dir name))
          match fs.DirByPath w1.st (path.Dir name) with
          | .error err => (.error err, w2)
          | .ok parent => OpenFile.build fs TypeByExtension clock w2 name parent.ID none
        else (.error err, w1)

/-- Go `Create`: `OpenFile` with `O_WRONLY|O_CREATE|O_EXCL` and permission `0644`. -/
def Create (fs : VFS σ) (TypeByExtension : String → String) (clock : Nat → Time)
    (w : World σ) (name : String) : Except Error File × World σ :=
  OpenFile fs TypeByExtension clock w name
    ((os.O_WRONLY ||| os.O_CREATE ||| os.O_EXCL : Nat) : Int) 420

/-- Go `Mkdir`. -/
def Mkdir (fs : VFS σ) (clock : Nat → Time) (w : World σ) (name : String)
    (tags : List String) : Except Error DirDoc × World σ :=
  let name := path.Clean name
  if name = "/" then (.error Error.ErrParentDoesNotExist, w)
  else
    let dirname := path.Base name
    let dirpath := path.Dir name
    let w1 := w.log (.DirByPath dirpath)
    match fs.DirByPath w.st dirpath with
    | .error err => (.error err, w1)
    | .ok parent =>
      let (now, w2) := w1.now clock
      match NewDirDocWithParent now dirname parent tags with
      | .error err => (.error err, w2)
      | .ok dir =>
        match fs.CreateDir w2.st dir with
        | (.error err, st) => (.error err, { (w2.log (.CreateDir dir)) with st := st })
        | (.ok dir1, st) => (.ok dir1, { (w2.log (.CreateDir dir)) with st := st })

/-- The first loop of `MkdirAll`: probe `base`, and on a not-exist error move to
its parent, recording the element left behind. It yields the directory found and
the elements recorded, deepest first. -/
def MkdirAll.probe (fs : VFS σ) :
    Nat → World σ → String → List String → Option (Except Error (DirDoc × List String) × World σ)
  | 0, _, _, _ => none
  | fuel + 1, w, base, dirs =>
    let w1 := w.log (.DirByPath base)
    match fs.DirByPath w.st base with
    | .error err =>
      if os.IsNotExist err then
        MkdirAll.probe fs fuel w1 (path.Dir base) (dirs ++ [path.Base base])
      else some (.error err, w1)
    | .ok parent => some (.ok (parent, dirs), w1)

/-- The second loop of `MkdirAll`, over the elements still to create, the one
nearest to `parent` first. -/
def MkdirAll.create (fs : VFS σ) (clock : Nat → Time) :
    List String → DirDoc → World σ → Except Error DirDoc × World σ
  | [], parent, w => (.ok parent, w)
  | name :: rest, parent, w =>
    let (now, w1) := w.now clock
    match NewDirDocWithParent now name parent [] with
    | .error err => (.error err, w1)
    | .ok dir =>
      match fs.CreateDir w1.st dir with
      | (.error err, st) => (.error err, { (w1.log (.CreateDir dir)) with st := st })
      | (.ok dir1, st) =>
        MkdirAll.create fs clock rest dir1 { (w1.log (.CreateDir dir)) with st := st }

/-- Go `MkdirAll`. The `tags` argument is not used by the code: every directory
is built with `nil` tags. -/
def MkdirAll (fs : VFS σ) (clock : Nat → Time) (fuel : Nat) (w : World σ) (name : String)
    (tags : List String) : Option (Except Error DirDoc × World σ) :=
  match MkdirAll.probe fs fuel w name [] with
  | none => none
  | some (.error err, w1) => some (.error err, w1)
  | some (.ok (parent, dirs), w1) => some (MkdirAll.create fs clock dirs.reverse parent w1)

/-- Go `Rename`. -/
def Rename (fs : VFS σ) (out : Outside σ) (w : World σ) (oldpath newpath : String) :
    Option Error × World σ :=
  let w1 := w.log (.DirOrFileByPath oldpath)
  match fs.DirOrFileByPath w.st oldpath with
  | .error err => (some err, w1)
  | .ok node =>
    let newname := path.Base newpath
    let lookup : Except Error (Option String) × World σ :=
      if path.Dir oldpath ≠ path.Dir newpath then
        match fs.DirByPath w1.st (path.Dir newpath) with
        | .error err => (.error err, w1.log (.DirByPath (path.Dir newpath)))
        | .ok parent => (.ok (some parent.DirID), w1.log (.DirByPath (path.Dir newpath)))
      else (.ok none, w1)
    match lookup with
    | (.error err, w2) => (some err, w2)
    | (.ok newdirID, w2) =>
      let patch : DocPatch :=
        { Name := some newname, DirID := newdirID, RestorePath := none, Tags := none,
          UpdatedAt := none, Executable := none }
      match node with
      | .inl dir =>
        let r := out.ModifyDirMetadata w2.st dir patch
        (match r.1 with
          | .error err => some err
          | .ok _ => none,
         { (w2.log (.ModifyDirMetadata dir patch)) with st := r.2 })
      | .inr file =>
        let r := out.ModifyFileMetadata w2.st file patch
        (match r.1 with
          | .error err => some err
          | .ok _ => none,
         { (w2.log (.ModifyFileMetadata file patch)) with st := r.2 })

/-- Go `Remove`. -/
def Remove (fs : VFS σ) (out : Outside σ) (w : World σ) (name : String) :
    Option Error × World σ :=
  let w1 := w.log (.DirOrFileByPath name)
  match fs.DirOrFileByPath w.st name with
  | .error err => (some err, w1)
  | .ok (.inr file) =>
    let r := fs.DestroyFile w1.st file
    (r.1, { (w1.log (.DestroyFile file)) with st := r.2 })
  | .ok (.inl dir) =>
    let w2 := w1.log (.IsEmpty dir)
    match out.IsEmpty w1.st dir with
    | .error err => (some err, w2)
    | .ok empty =>
      if !empty then (some Error.ErrDirNotEmpty, w2)
      else
        let r := fs.DestroyDirAndContent w2.st dir
        (r.1, { (w2.log (.DestroyDirAndContent dir)) with st := r.2 })

/-- Go `RemoveAll`. -/
def RemoveAll (fs : VFS σ) (w : World σ) (name : String) : Option Error × World σ :=
  let w1 := w.log (.DirOrFileByPath name)
  match fs.DirOrFileByPath w.st name with
  | .error err => (some err, w1)
  | .ok (.inl dir) =>
    let r := fs.DestroyDirAndContent w1.st dir
    (r.1, { (w1.log (.DestroyDirAndContent dir)) with st := r.2 })
  | .ok (.inr file) =>
    let r := fs.DestroyFile w1.st file
    (r.1, { (w1.log (.DestroyFile file)) with st := r.2 })

/-- Go `Exists`. -/
def Exists (fs : VFS σ) (w : World σ) (name : String) : Except Error Bool × World σ :=
  let w1 := w.log (.DirOrFileByPath name)
  match fs.DirOrFileByPath w.st name with
  | .error err => if os.IsNotExist err then (.ok false, w1) else (.error err, w1)
  | .ok _ => (.ok true, w1)

/-- Go `DirExists`. -/
def DirExists (fs : VFS σ) (w : World σ) (name : String) : Except Error Bool × World σ :=
  let w1 := w.log (.DirByPath name)
  match fs.DirByPath w.st name with
  | .error err => if os.IsNotExist err then (.ok false, w1) else (.error err, w1)
  | .ok _ => (.ok true, w1)

/-- One call of the visit callback: the arguments `walkFn` received. -/
structure Visit where
  name : String
  dir : Option DirDoc
  file : Option FileDoc
  err : Option Error
  deriving DecidableEq, Repr

/-- Go `WalkFn`, a closure: it reads and updates its own state `τ` and returns an
error or `nil`. -/
abbrev WalkFn (τ : Type) :=
  τ → String → Option DirDoc → Option FileDoc → Option Error → Option Error × τ

/-- What a walk carries along: the world, the state of the callback, and the
calls made to the callback so far. -/
structure WalkState (σ τ : Type) where
  world : World σ
  cb : τ
  visits : List Visit

/-- One call of `walkFn`, recorded. -/
def WalkState.call {τ : Type} (walkFn : WalkFn τ) (ws : WalkState σ τ) (name : String)
    (dir : Option DirDoc) (file : Option FileDoc) (err : Option Error) :
    Option Error × WalkState σ τ :=
  let r := walkFn ws.cb name dir file err
  (r.1, { ws with cb := r.2, visits := ws.visits ++ [⟨name, dir, file, err⟩] })

/-- The loop of `walk` over the results of the iterator; `rec` is the recursive
call of `walk`. The end of the list is `ErrIteratorDone`. -/
def walkLoop {τ : Type} (walkFn : WalkFn τ)
    (rec : String → Node → WalkState σ τ → Option (Option Error × WalkState σ τ))
    (name : String) :
    List (Except Error Node) → WalkState σ τ → Option (Option Error × WalkState σ τ)
  | [], ws => some (none, ws)
  | .error err :: _, ws =>
    if err = Error.ErrIteratorDone then some (none, ws)
    else some (ws.call walkFn name none none (some err))
  | .ok child :: rest, ws =>
    let fullpath := path.Join [name, child.DocName]
    match rec fullpath child ws with
    | none => none
    | some (some err, ws1) => some (some err, ws1)
    | some (none, ws1) => walkLoop walkFn rec name rest ws1

/-- Go `walk`; `fuel` bounds the depth of the recursion. -/
def walk {τ : Type} (fs : VFS σ) (walkFn : WalkFn τ) :
    Nat → String → Node → WalkState σ τ → Option (Option Error × WalkState σ τ)
  | 0, _, _, _ => none
  | fuel + 1, name, node, ws =>
    match ws.call walkFn name node.dir node.file none with
    | (some err, ws1) =>
      if node.dir.isSome ∧ err = Error.ErrSkipDir then some (none, ws1)
      else some (some err, ws1)
    | (none, ws1) =>
      match node with
      | .inr _ => some (none, ws1)
      | .inl dir =>
        walkLoop walkFn (walk fs walkFn fuel) name (fs.DirIterator ws1.world.st dir)
          { ws1 with world := ws1.world.log (.DirIterator dir) }

/-- Go `Walk`. -/
def Walk {τ : Type} (fs : VFS σ) (walkFn : WalkFn τ) (fuel : Nat) (ws : WalkState σ τ)
    (root : String) : Option (Option Error × WalkState σ τ) :=
  let ws1 := { ws with world := ws.world.log (.DirOrFileByPath root) }
  match fs.DirOrFileByPath ws.world.st root with
  | .error err => some (ws1.call walkFn root none none (some err))
  | .ok node => walk fs walkFn fuel root node ws1

/-- Go `getRestoreDir`. -/
def getRestoreDir (fs : VFS σ) (clock : Nat → Time) (fuel : Nat) (w : World σ)
    (name restorePath : String) : Option (Except Error DirDoc × World σ) :=
  if !strings.HasPrefix name TrashDirName then some (.error Error.ErrFileNotInTrash, w)
  else
    let derived : Except Error String × World σ :=
      if restorePath = "" then
        let name := strings.TrimPrefix name (TrashDirName ++ "/")
        let split := strings.Index name "/"
        if split ≥ 0 then
          let root := strings.sliceTo name split
          let rest := path.Dir (strings.sliceFrom name (split + 1))
          let w1 := w.log (.DirByPath (TrashDirName ++ "/" ++ root))
          match fs.DirByPath w.st (TrashDirName ++ "/" ++ root) with
          | .error err => (.error err, w1)
          | .ok doc =>
            if doc.RestorePath ≠ "" then
              (.ok (path.Join [doc.RestorePath, doc.DocName, rest]), w1)
            else (.ok restorePath, w1)
        else (.ok restorePath, w)
      else (.ok restorePath, w)
    match derived with
    | (.error err, w1) => some (.error err, w1)
    | (.ok restorePath, w1) =>
      let restorePath := if restorePath = "" then "/" else restorePath
      let w2 := w1.log (.DirByPath restorePath)
      match fs.DirByPath w1.st restorePath with
      | .error err =>
        if os.IsNotExist err then MkdirAll fs clock fuel w2 restorePath []
        else some (.error err, w2)
      | .ok restoreDir => some (.ok restoreDir, w2)

end Engine

/-! ## Finite trees held by an index -/

/-- A finite tree of documents: a directory with its children in the order its
iterator yields them, or a file. -/
inductive Tree where
  | dir : DirDoc → List Tree → Tree
  | file : FileDoc → Tree

namespace Tree

/-- The document at the root of a tree. -/
def node : Tree → Node
  | .dir d _ => .inl d
  | .file f => .inr f

mutual
/-- The pre-order listing of a tree whose root is reached under `name`: each
node with the name `Walk` gives it, a directory before its children, the
children in order, each child named by joining the name of its directory with
its own `DocName`. -/
def preorder : String → Tree → List Visit
  | name, .dir d cs => ⟨name, some d, none, none⟩ :: preorderList name cs
  | name, .file f => [⟨name, none, some f, none⟩]
/-- The pre-order listing of the children of the directory named `name`. -/
def preorderList : String → List Tree → List Visit
  | _, [] => []
  | name, c :: cs =>
    preorder (path.Join [name, c.node.DocName]) c ++ preorderList name cs
end

mutual
/-- The number of directories of a tree. -/
def countDirs : Tree → Nat
  | .dir _ cs => 1 + countDirsList cs
  | .file _ => 0
/-- The number of directories of a list of trees. -/
def countDirsList : List Tree → Nat
  | [] => 0
  | c :: cs => countDirs c + countDirsList cs
end

mutual
/-- The number of files of a tree. -/
def countFiles : Tree → Nat
  | .dir _ cs => countFilesList cs
  | .file _ => 1
/-- The number of files of a list of trees. -/
def countFilesList : List Tree → Nat
  | [] => 0
  | c :: cs => countFiles c + countFilesList cs
end

mutual
/-- The number of levels of a tree. -/
def depth : Tree → Nat
  | .dir _ cs => 1 + depthList cs
  | .file _ => 1
/-- The largest number of levels among a list of trees. -/
def depthList : List Tree → Nat
  | [] => 0
  | c :: cs => max (depth c) (depthList cs)
end

mutual
/-- The tree without the descendants of the directories that `skip` selects. -/
def prune (skip : DirDoc → Bool) : Tree → Tree
  | .dir d cs => if skip d then .dir d [] else .dir d (pruneList skip cs)
  | .file f => .file f
/-- The trees of a list, each pruned. -/
def pruneList (skip : DirDoc → Bool) : List Tree → List Tree
  | [] => []
  | c :: cs => prune skip c :: pruneList skip cs
end

mutual
/-- The index of `fs` in state `st` holds the tree: the iterator of every
directory of the tree yields exactly the documents of its children, in order,
each once. -/
def HeldBy {σ : Type} (fs : VFS σ) (st : σ) : Tree → Prop
  | .dir d cs => fs.DirIterator st d = cs.map (fun c => Except.ok c.node) ∧ HeldByList fs st cs
  | .file _ => True
/-- Every tree of the list is held by the index. -/
def HeldByList {σ : Type} (fs : VFS σ) (st : σ) : List Tree → Prop
  | [] => True
  | c :: cs => HeldBy fs st c ∧ HeldByList fs st cs
end

mutual
/-- The children of the first directory of the tree whose document is `d`. -/
def childrenOf (d : DirDoc) : Tree → Option (List Tree)
  | .dir e cs => if e = d then some cs else childrenOfList d cs
  | .file _ => none
/-- The children of the first directory of the list of trees whose document is `d`. -/
def childrenOfList (d : DirDoc) : List Tree → Option (List Tree)
  | [] => none
  | c :: cs =>
    match childrenOf d c with
    | some r => some r
    | none => childrenOfList d cs
end

end Tree

/-! ## Path elements -/

/-- The characters of an element of a cleaned path: not empty, without a slash,
and neither `.` nor `..`. -/
def path.IsElemL (x : List Char) : Prop :=
  x ≠ [] ∧ '/' ∉ x ∧ x ≠ ['.'] ∧ x ≠ ['.', '.']

/-- An element of a cleaned path: not empty, without a slash, and neither `.` nor
`..`. -/
def IsElem (c : String) : Prop :=
  path.IsElemL c.data

/-- The rooted path made of the given elements: `/` for none, else a slash before
each. -/
def absPath (elems : List String) : String :=
  ⟨'/' :: path.joinSlash (elems.map String.data)⟩

/-- The chain of directories `MkdirAll` creates below `parent` for the elements
given: each document is built by `NewDirDocWithParent` from its element and the
document before it (`parent` for the first), and `created` holds what `CreateDir`
answered for each document built. -/
def CreatedChain {σ : Type} (fs : VFS σ) : DirDoc → List String → List DirDoc → List DirDoc → Prop
  | _, [], [], [] => True
  | parent, s :: ss, b :: bs, c :: cs =>
    (∃ now, NewDirDocWithParent now s parent [] = .ok b) ∧
    (∃ st, (fs.CreateDir st b).1 = .ok c) ∧
    CreatedChain fs c ss bs cs
  | _, _, _, _ => False

/-- Every `CreateDir` call of the second loop of `MkdirAll` succeeds, when the
loop creates the elements given below `parent`, from the backend state `st` and
with the clock read `t` times so far: the backend accepts the document built for
the first element, and then every call of the loop on the remaining elements
succeeds, from the document and the state the backend left. When a document
cannot be built the loop ends with no further call. -/
def CreateCallsSucceed {σ : Type} (fs : VFS σ) (clock : Nat → Time) :
    List String → DirDoc → σ → Nat → Prop
  | [], _, _, _ => True
  | s :: ss, parent, st, t =>
    match NewDirDocWithParent (clock t) s parent [] with
    | .error _ => True
    | .ok b =>
      match fs.CreateDir st b with
      | (.ok c, st1) => CreateCallsSucceed fs clock ss c st1 (t + 1)
      | (.error _, _) => False

/-- The probes of `MkdirAll` on the path `anc/segs`: the path itself, then each
of its ancestors down to `anc`. -/
def probeCalls (anc segs : List String) : List Call :=
  segs.inits.reverse.map (fun pre => Call.DirByPath (absPath (anc ++ pre)))

/-! ## Concrete backends -/

/-- An in-memory store: the directories and the files by path. -/
structure Mem where
  dirs : List (String × DirDoc)
  files : List (String × FileDoc)
  deriving DecidableEq, Repr

/-- The backend over `Mem`: lookups by path; `CreateDir` stores the directory
under its materialized path and gives it that path as identifier, or fails with a
backend error when the store is read-only. -/
def Mem.fs (readOnly : Bool) : VFS Mem where
  DirByPath st name :=
    match st.dirs.lookup name with
    | some d => .ok d
    | none => .error Error.ErrNotExist
  FileByPath st name :=
    match st.files.lookup name with
    | some f => .ok f
    | none => .error Error.ErrNotExist
  DirOrFileByPath st name :=
    match st.dirs.lookup name with
    | some d => .ok (.inl d)
    | none =>
      match st.files.lookup name with
      | some f => .ok (.inr f)
      | none => .error Error.ErrNotExist
  DirIterator _ _ := []
  OpenFile _ _ := .ok 0
  CreateDir st doc :=
    if readOnly then (.error (Error.backend 30 false), st)
    else
      let d := { doc with DocID := doc.Fullpath }
      (.ok d, { st with dirs := st.dirs ++ [(doc.Fullpath, d)] })
  CreateFile st _ _ := (.ok 1, st)
  DestroyDirAndContent st doc :=
    (none, { st with dirs := st.dirs.filter (fun e => e.2 ≠ doc) })
  DestroyFile st doc :=
    (none, { st with files := st.files.filter (fun e => e.2 ≠ doc) })

/-- The backend over `Mem` that checks what it creates: `CreateDir` fails with a
backend error when the parent identifier of the document is not the identifier
of a stored directory, or when a directory is already stored under the path of
the document. -/
def Mem.strictFs : VFS Mem :=
  { Mem.fs false with
    CreateDir := fun st doc =>
      if st.dirs.any (fun e => e.2.DocID = doc.DirID) ∧
          ¬ st.dirs.any (fun e => e.1 = doc.Fullpath) then
        let d := { doc with DocID := doc.Fullpath }
        (.ok d, { st with dirs := st.dirs ++ [(doc.Fullpath, d)] })
      else (.error (Error.backend 17 false), st) }

/-- The helpers over `Mem`: a directory is empty when no stored document has it
as parent; the metadata updates answer with the old document. -/
def Mem.out : Outside Mem where
  IsEmpty st d :=
    .ok (st.dirs.all (fun e => e.2.DirID ≠ d.DocID) && st.files.all (fun e => e.2.DirID ≠ d.DocID))
  ModifyDirMetadata st d _ := (.ok d, st)
  ModifyFileMetadata st f _ := (.ok f, st)

/-- A directory document of the examples. -/
def exDir (id name dirID fullpath : String) : DirDoc :=
  { DocType := consts.DirType, DocID := id, DocRev := "1", DocName := name, DirID := dirID,
    RestorePath := "", CreatedAt := 0, UpdatedAt := 0, Tags := [], Fullpath := fullpath }

/-- A file document of the examples. -/
def exFile (id name dirID : String) : FileDoc :=
  { DocType := consts.FileType, DocID := id, DocRev := "1", DocName := name, DirID := dirID,
    RestorePath := "", CreatedAt := 0, UpdatedAt := 0, ByteSize := 3, MD5Sum := [], Mime := "text/plain",
    Class := "text", Executable := false, Tags := [], Metadata := [] }

/-- The root directory of the examples. -/
def exRoot : DirDoc := exDir "root-id" "" "" "/"

/-- A world over a backend state, before any call. -/
def World.init {σ : Type} (st : σ) : World σ :=
  { st := st, trace := [], ticks := 0 }

/-- A store holding only the root directory. -/
def memRoot : Mem :=
  { dirs := [("/", exRoot)], files := [] }

/-- The backend that holds a tree and nothing else: the root of the tree is found
under every path, and the iterator of a directory yields the documents of its
children. -/
def Tree.fs (t : Tree) : VFS Unit where
  DirByPath _ _ := .error Error.ErrNotExist
  FileByPath _ _ := .error Error.ErrNotExist
  DirOrFileByPath _ _ := .ok t.node
  DirIterator _ d :=
    match Tree.childrenOf d t with
    | some cs => cs.map (fun c => Except.ok c.node)
    | none => []
  OpenFile _ _ := .ok 0
  CreateDir st _ := (.error (Error.backend 30 false), st)
  CreateFile st _ _ := (.error (Error.backend 30 false), st)
  DestroyDirAndContent st _ := (none, st)
  DestroyFile st _ := (none, st)

/-- A store with the directories `/a` and `/b` under the root and the file
`/a/f`. -/
def memTwoDirs : Mem :=
  { dirs := [("/", exRoot), ("/a", exDir "id-a" "a" "root-id" "/a"),
      ("/b", exDir "id-b" "b" "root-id" "/b")],
    files := [("/a/f", exFile "id-f" "f" "id-a")] }

/-- A store with the file `/f` under the root. -/
def memOneFile : Mem :=
  { dirs := [("/", exRoot)], files := [("/f", exFile "id-f" "f" "root-id")] }

/-- A store with the directory `/Documents` under the root. -/
def memDocuments : Mem :=
  { dirs := [("/", exRoot), ("/Documents", exDir "id-docs" "Documents" "root-id" "/Documents")],
    files := [] }

/-- The trashed directory `foo` of the examples, to be restored under
`/Documents`. -/
def exTrashedFoo : DirDoc :=
  { exDir "id-foo" "foo" "id-trash" "/.cozy_trash/foo" with RestorePath := "/Documents" }

/-- A store with the trash, the trashed directory `/.cozy_trash/foo` and nothing
else under the root. -/
def memTrash : Mem :=
  { dirs := [("/", exRoot), ("/.cozy_trash", exDir "id-trash" ".cozy_trash" "root-id" "/.cozy_trash"),
      ("/.cozy_trash/foo", exTrashedFoo)],
    files := [] }

/-- A tree of the examples: the root holds the file `f1`, the directory `a`
(holding the file `f2` and the empty directory `c`) and the directory `b`
(holding the file `f3`). -/
def exTree : Tree :=
  .dir exRoot
    [.file (exFile "id-f1" "f1" "root-id"),
     .dir (exDir "id-a" "a" "root-id" "/a")
       [.file (exFile "id-f2" "f2" "id-a"), .dir (exDir "id-c" "c" "id-a" "/a/c") []],
     .dir (exDir "id-b" "b" "root-id" "/b") [.file (exFile "id-f3" "f3" "id-b")]]

/-- A callback that counts its calls and always returns `nil`. -/
def countingFn : WalkFn Nat := fun c _ _ _ _ => (none, c + 1)

/-- A callback that returns `ErrSkipDir` on the directories `skip` selects and
`nil` on every other node. -/
def skippingFn (skip : DirDoc → Bool) : WalkFn Unit := fun c _ d _ _ =>
  (match d with
    | some dir => if skip dir then some Error.ErrSkipDir else none
    | none => none, c)

/-- The state of a walk before any call. -/
def WalkState.init {σ τ : Type} (st : σ) (c : τ) : WalkState σ τ :=
  { world := World.init st, cb := c, visits := [] }

/-- An index that reports not-exist for every path, with a backend that accepts
every creation. -/
def voidFs : VFS Unit where
  DirByPath _ _ := .error Error.ErrNotExist
  FileByPath _ _ := .error Error.ErrNotExist
  DirOrFileByPath _ _ := .error Error.ErrNotExist
  DirIterator _ _ := []
  OpenFile _ _ := .ok 0
  CreateDir st doc := (.ok doc, st)
  CreateFile st _ _ := (.ok 1, st)
  DestroyDirAndContent st _ := (none, st)
  DestroyFile st _ := (none, st)

/-- An index whose lookups fail with an input/output error of the backend, which
is not a not-exist error. -/
def brokenFs : VFS Unit where
  DirByPath _ _ := .error (Error.backend 5 false)
  FileByPath _ _ := .error (Error.backend 5 false)
  DirOrFileByPath _ _ := .error (Error.backend 5 false)
  DirIterator _ _ := []
  OpenFile _ _ := .error (Error.backend 5 false)
  CreateDir st _ := (.error (Error.backend 5 false), st)
  CreateFile st _ _ := (.error (Error.backend 5 false), st)
  DestroyDirAndContent st _ := (some (Error.backend 5 false), st)
  DestroyFile st _ := (some (Error.backend 5 false), st)

/-- A union document of the examples, of the given type. -/
def exUnion (docType : String) : DirOrFileDoc :=
  { toDirDoc := { exDir "id-u" "u" "root-id" "/u" with DocType := docType },
    ByteSize := 7, MD5Sum := [1, 2], Mime := "text/plain", Class := "text",
    Executable := true, Metadata := [("k", "v")] }

/-- A callback that returns `ErrSkipDir` on every call. -/
def alwaysSkipFn : WalkFn Unit := fun c _ _ _ _ => (some Error.ErrSkipDir, c)

/-- A tree made of a single file. -/
def exFileTree : Tree := .file (exFile "id-f" "f" "root-id")

/-- A clock that reads the number of its readings so far. -/
def tickClock : Nat → Time := fun n => (n : Int)

/-- A MIME table that knows no extension. -/
def noMime : String → String := fun _ => ""

/-! # Theorems -/

theorem str_eq_empty_iff (s : String) : s = "" ↔ s.data = [] := by
  constructor
  · intro h; subst h; rfl
  · intro h; cases s; simp_all

namespace path

theorem splitSlash_ne_nil (l : List Char) : splitSlash l ≠ [] := by
  cases l with
  | nil => simp [splitSlash]
  | cons c cs =>
    simp only [splitSlash]
    split
    · simp
    · split <;> simp

theorem splitSlash_noslash (x : List Char) (hx : '/' ∉ x) : splitSlash x = [x] := by
  induction x with
  | nil => rfl
  | cons c cs ih =>
    simp only [List.mem_cons, not_or] at hx
    have hc : c ≠ '/' := fun h => hx.1 h.symm
    simp [splitSlash, hc, ih hx.2]

theorem splitSlash_append (x rest : List Char) (hx : '/' ∉ x) :
    splitSlash (x ++ '/' :: rest) = x :: splitSlash rest := by
  induction x with
  | nil => simp [splitSlash]
  | cons c cs ih =>
    simp only [List.mem_cons, not_or] at hx
    have hc : c ≠ '/' := fun h => hx.1 h.symm
    simp [splitSlash, hc, ih hx.2]

theorem cleanStep_elem (r : Bool) (out : List (List Char)) (x : List Char) (hx : IsElemL x) :
    cleanStep r out x = x :: out := by
  obtain ⟨h1, _, h3, h4⟩ := hx
  simp [cleanStep, h1, h3, h4]

theorem foldl_cleanStep_elems (r : Bool) (xs : List (List Char)) :
    ∀ out, (∀ x ∈ xs, IsElemL x) → xs.foldl (cleanStep r) out = xs.reverse ++ out := by
  induction xs with
  | nil => intro out _; simp
  | cons x xs ih =>
    intro out h
    simp only [List.foldl_cons]
    rw [cleanStep_elem r out x (h x (by simp)), ih _ (fun y hy => h y (by simp [hy]))]
    simp

theorem joinSlash_snoc (cs : List (List Char)) (c : List Char) (h : cs ≠ []) :
    joinSlash (cs ++ [c]) = joinSlash cs ++ '/' :: c := by
  induction cs with
  | nil => exact absurd rfl h
  | cons x xs ih =>
    cases xs with
    | nil => simp [joinSlash]
    | cons y ys =>
      have := ih (by simp)
      simp only [List.cons_append] at this ⊢
      simp [joinSlash, this]

theorem splitSlash_joinSlash_append (cs : List (List Char)) (rest : List Char)
    (h : cs ≠ []) (hs : ∀ x ∈ cs, '/' ∉ x) :
    splitSlash (joinSlash cs ++ '/' :: rest) = cs ++ splitSlash rest := by
  induction cs with
  | nil => exact absurd rfl h
  | cons x xs ih =>
    cases xs with
    | nil => simpa [joinSlash] using splitSlash_append x rest (hs x (by simp))
    | cons y ys =>
      have := ih (by simp) (fun z hz => hs z (by simp [hz]))
      simp only [joinSlash, List.append_assoc, List.cons_append]
      rw [splitSlash_append x _ (hs x (by simp))]
      simp only [joinSlash] at this
      rw [this]
      simp

theorem splitSlash_joinSlash (cs : List (List Char))
    (h : cs ≠ []) (hs : ∀ x ∈ cs, '/' ∉ x) :
    splitSlash (joinSlash cs) = cs := by
  induction cs with
  | nil => exact absurd rfl h
  | cons x xs ih =>
    cases xs with
    | nil => simpa [joinSlash] using splitSlash_noslash x (hs x (by simp))
    | cons y ys =>
      have := ih (by simp) (fun z hz => hs z (by simp [hz]))
      simp only [joinSlash]
      rw [splitSlash_append x _ (hs x (by simp))]
      simp only [joinSlash] at this
      rw [this]

/-- Cleaning a rooted list of elements, possibly followed by a slash, gives it back. -/
theorem Clean_rooted_elems (cs : List (List Char)) (hs : ∀ x ∈ cs, IsElemL x)
    (tl : List Char) (htl : tl = [] ∨ (tl = ['/'] ∧ cs ≠ [])) :
    Clean ⟨'/' :: (joinSlash cs ++ tl)⟩ = ⟨'/' :: joinSlash cs⟩ := by
  have hns : ∀ x ∈ cs, '/' ∉ x := fun x hx => (hs x hx).2.1
  have hsplit : ∃ e : List (List Char), (e = [] ∨ e = [[]]) ∧
      splitSlash ('/' :: (joinSlash cs ++ tl)) = [] :: (cs ++ e) := by
    by_cases hcs : cs = []
    · subst hcs
      rcases htl with rfl | ⟨_, h⟩
      · exact ⟨[[]], Or.inr rfl, by simp [splitSlash, joinSlash]⟩
      · exact absurd rfl h
    · rcases htl with rfl | ⟨rfl, _⟩
      · refine ⟨[], Or.inl rfl, ?_⟩
        simp [splitSlash, splitSlash_joinSlash cs hcs hns]
      · refine ⟨[[]], Or.inr rfl, ?_⟩
        simp [splitSlash, splitSlash_joinSlash_append cs [] hcs hns]
  obtain ⟨e, he, hsp⟩ := hsplit
  have hfold : (splitSlash ('/' :: (joinSlash cs ++ tl))).foldl (cleanStep true) [] = cs.reverse := by
    rw [hsp]
    simp only [List.foldl_cons, List.foldl_append]
    have h0 : cleanStep true [] [] = [] := by simp [cleanStep]
    rw [h0, foldl_cleanStep_elems true cs [] hs]
    rcases he with rfl | rfl
    · simp
    · simp [cleanStep]
  simp [Clean, hfold]

theorem split_last (pre c : List Char) (hc : '/' ∉ c) :
    Split ⟨pre ++ '/' :: c⟩ = (⟨pre ++ ['/']⟩, ⟨c⟩) := by
  have hrev : (pre ++ '/' :: c).reverse = c.reverse ++ '/' :: pre.reverse := by simp
  have hp : ∀ a ∈ c.reverse, (fun ch : Char => decide (ch ≠ '/')) a = true := by
    intro a ha
    simp only [List.mem_reverse] at ha
    simp only [decide_eq_true_eq]
    rintro rfl
    exact hc ha
  simp only [Split, hrev]
  rw [List.takeWhile_append_of_pos hp, List.dropWhile_append_of_pos hp]
  simp

theorem Base_last (pre c : List Char) (hc : '/' ∉ c) (hne : c ≠ []) :
    Base ⟨pre ++ '/' :: c⟩ = ⟨c⟩ := by
  have hrev : (pre ++ '/' :: c).reverse = c.reverse ++ '/' :: pre.reverse := by simp
  have hp : ∀ a ∈ c.reverse, (fun ch : Char => decide (ch ≠ '/')) a = true := by
    intro a ha
    simp only [List.mem_reverse] at ha
    simp only [decide_eq_true_eq]
    rintro rfl
    exact hc ha
  obtain ⟨x, xs, hx⟩ : ∃ x xs, c.reverse = x :: xs := by
    cases h : c.reverse with
    | nil => simp at h; exact absurd h hne
    | cons x xs => exact ⟨x, xs, rfl⟩
  have hx1 : x ≠ '/' := by
    have := hp x (by simp [hx])
    simpa using this
  have hdrop : ((pre ++ '/' :: c).reverse).dropWhile (fun ch => decide (ch = '/'))
      = c.reverse ++ '/' :: pre.reverse := by
    rw [hrev, hx]
    simp [List.dropWhile, hx1]
  simp only [Base, hdrop]
  rw [List.takeWhile_append_of_pos hp]
  simp [hne]

/-- The elements of a path have no slash. -/
theorem splitSlash_mem_noslash (l : List Char) : ∀ x ∈ splitSlash l, '/' ∉ x := by
  induction l with
  | nil => simp [splitSlash]
  | cons c cs ih =>
    intro x hx
    simp only [splitSlash] at hx
    by_cases hc : c = '/'
    · simp only [hc, if_true, List.mem_cons] at hx
      rcases hx with rfl | hx
      · simp
      · exact ih x hx
    · simp only [hc, if_false] at hx
      cases hsp : splitSlash cs with
      | nil => exact absurd hsp (splitSlash_ne_nil cs)
      | cons h t =>
        rw [hsp] at hx ih
        simp only [List.mem_cons] at hx
        rcases hx with rfl | hx
        · have := ih h (by simp)
          simp only [List.mem_cons, not_or]
          exact ⟨fun e => hc e.symm, this⟩
        · exact ih x (by simp [hx])

theorem cleanStep_rooted_elems (out : List (List Char)) (seg : List Char)
    (hseg : '/' ∉ seg) (hout : ∀ x ∈ out, IsElemL x) :
    ∀ x ∈ cleanStep true out seg, IsElemL x := by
  unfold cleanStep
  by_cases h1 : seg = [] ∨ seg = ['.']
  · simpa [h1] using hout
  · simp only [h1, if_false]
    by_cases h2 : seg = ['.', '.']
    · simp only [h2, if_true]
      cases out with
      | nil => simp
      | cons top rest =>
        by_cases h3 : top = ['.', '.']
        · simpa [h3] using hout
        · simp only [ne_eq, h3, not_false_eq_true, if_true]
          exact fun x hx => hout x (by simp [hx])
    · simp only [h2, if_false]
      intro x hx
      simp only [List.mem_cons] at hx
      rcases hx with rfl | hx
      · simp only [not_or] at h1
        exact ⟨h1.1, hseg, h1.2, h2⟩
      · exact hout x hx

theorem foldl_cleanStep_rooted_elems (xs : List (List Char)) :
    ∀ out, (∀ x ∈ xs, '/' ∉ x) → (∀ x ∈ out, IsElemL x) →
      ∀ x ∈ xs.foldl (cleanStep true) out, IsElemL x := by
  induction xs with
  | nil => intro out _ h; simpa using h
  | cons y ys ih =>
    intro out hxs hout
    simp only [List.foldl_cons]
    exact ih _ (fun x hx => hxs x (by simp [hx]))
      (cleanStep_rooted_elems out y (hxs y (by simp)) hout)

end path



theorem Clean_absPath (cs : List String) (h : ∀ c ∈ cs, IsElem c) :
    path.Clean (absPath cs) = absPath cs := by
  have := path.Clean_rooted_elems (cs.map String.data)
    (by intro x hx; simp only [List.mem_map] at hx; obtain ⟨c, hc, rfl⟩ := hx; exact h c hc) [] (Or.inl rfl)
  simpa [absPath] using this

/-- Every cleaned rooted path is the rooted path of a list of elements. -/
theorem Clean_rooted_eq_absPath (p : String) (h : p.data.head? = some '/') :
    ∃ cs, (∀ c ∈ cs, IsElem c) ∧ path.Clean p = absPath cs := by
  have hne : p.data ≠ [] := by
    intro e; rw [e] at h; simp at h
  refine ⟨((path.splitSlash p.data).foldl (path.cleanStep true) []).reverse.map String.mk, ?_, ?_⟩
  · intro c hc
    simp only [List.mem_map, List.mem_reverse] at hc
    obtain ⟨x, hx, rfl⟩ := hc
    exact path.foldl_cleanStep_rooted_elems _ [] (path.splitSlash_mem_noslash _) (by simp) x hx
  · simp [path.Clean, hne, h, absPath, Function.comp_def]

theorem absPath_snoc (cs : List String) (c : String) :
    ∃ pre, absPath (cs ++ [c]) = ⟨pre ++ '/' :: c.data⟩ ∧
      (⟨pre ++ ['/']⟩ : String) = ⟨'/' :: (path.joinSlash (cs.map String.data) ++
        (if cs = [] then [] else ['/']))⟩ := by
  by_cases h : cs = []
  · subst h
    exact ⟨[], by simp [absPath, path.joinSlash], by simp [path.joinSlash]⟩
  · refine ⟨'/' :: path.joinSlash (cs.map String.data), ?_, by simp [h]⟩
    simp [absPath, path.joinSlash_snoc _ _ (by simpa using h : cs.map String.data ≠ [])]

theorem Base_absPath_snoc (cs : List String) (c : String) (hc : IsElem c) :
    path.Base (absPath (cs ++ [c])) = c := by
  obtain ⟨pre, h1, _⟩ := absPath_snoc cs c
  rw [h1, path.Base_last pre c.data hc.2.1 hc.1]

theorem Dir_absPath_snoc (cs : List String) (c : String) (h : ∀ x ∈ cs, IsElem x)
    (hc : IsElem c) : path.Dir (absPath (cs ++ [c])) = absPath cs := by
  obtain ⟨pre, h1, h2⟩ := absPath_snoc cs c
  unfold path.Dir
  rw [h1, path.split_last pre c.data hc.2.1]
  simp only [h2]
  have := path.Clean_rooted_elems (cs.map String.data)
    (by intro x hx; simp only [List.mem_map] at hx; obtain ⟨c, hc, rfl⟩ := hx; exact h c hc)
    (if cs = [] then [] else ['/'])
    (by by_cases e : cs = [] <;> simp [e])
  simpa [absPath] using this


namespace strings

theorem indexFrom_slash (x t : List Char) (hx : '/' ∉ x) :
    ∀ i : Nat, indexFrom ['/'] (x ++ '/' :: t) i = ((i + x.length : Nat) : Int) := by
  induction x with
  | nil => intro i; simp [indexFrom, List.isPrefixOf]
  | cons c cs ih =>
    intro i
    simp only [List.mem_cons, not_or] at hx
    have hc : (('/' : Char) == c) = false := by
      simp only [beq_eq_false_iff_ne]
      exact hx.1
    show indexFrom ['/'] (c :: (cs ++ '/' :: t)) i = _
    rw [indexFrom]
    simp only [List.isPrefixOf, hc, Bool.false_and]
    rw [if_neg (by simp), ih hx.2 (i + 1)]
    simp only [List.length_cons]
    congr 1
    omega

end strings

namespace path

theorem Clean_ne_empty (p : String) : Clean p ≠ "" := by
  unfold Clean
  rw [Ne, str_eq_empty_iff]
  by_cases h1 : p.data = []
  · simp [h1]
  · simp only [h1, if_false]
    split
    · simp
    · split
      · simp
      · simpa using ‹¬ _›

theorem Join_ne_empty (e : String) (es : List String) (h : e ≠ "") : Join (e :: es) ≠ "" := by
  have h' : e.data ≠ [] := fun x => h ((str_eq_empty_iff e).2 x)
  unfold Join
  simp only [List.filter_cons, h', ne_eq, not_false_eq_true, decide_True, if_true]
  rw [if_neg (by simp)]
  exact Clean_ne_empty _

end path


/-! ### `MkdirAll` -/

section MkdirAllLemmas

variable {σ : Type}

theorem probeCalls_snoc (anc segs : List String) (c : String) :
    probeCalls anc (segs ++ [c]) =
      Call.DirByPath (absPath (anc ++ (segs ++ [c]))) :: probeCalls anc segs := by
  simp [probeCalls, List.inits_append, List.inits]

/-- The first loop of `MkdirAll` on `anc/segs`, when `anc` is a directory and no
longer prefix is: it probes the path and its ancestors down to `anc` and yields
`anc` with the elements of `segs`, deepest first. -/
theorem MkdirAll.probe_chain (fs : VFS σ) (st : σ) (anc : List String) (A : DirDoc)
    (hanc : ∀ c ∈ anc, IsElem c)
    (hA : fs.DirByPath st (absPath anc) = .ok A) :
    ∀ (segs : List String), (∀ c ∈ segs, IsElem c) →
      (∀ pre, pre <+: segs → pre ≠ [] →
        ∃ err, fs.DirByPath st (absPath (anc ++ pre)) = .error err ∧ os.IsNotExist err = true) →
      ∀ (fuel : Nat) (w : World σ) (dirs : List String), w.st = st → segs.length < fuel →
        MkdirAll.probe fs fuel w (absPath (anc ++ segs)) dirs =
          some (.ok (A, dirs ++ segs.reverse),
            { w with trace := w.trace ++ probeCalls anc segs }) := by
  intro segs
  induction segs using List.reverseRecOn with
  | nil =>
    intro _ _ fuel w dirs hw hfuel
    cases fuel with
    | zero => simp at hfuel
    | succ fuel =>
      simp [MkdirAll.probe, hw, hA, probeCalls, World.log]
  | append_singleton segs c ih =>
    intro hsegs hmiss fuel w dirs hw hfuel
    cases fuel with
    | zero => simp at hfuel
    | succ fuel =>
      obtain ⟨err, herr, hne⟩ := hmiss (segs ++ [c]) (List.prefix_refl _) (by simp)
      have hc : IsElem c := hsegs c (by simp)
      have hpre : ∀ x ∈ anc ++ segs, IsElem x := by
        intro x hx
        rcases List.mem_append.1 hx with h | h
        · exact hanc x h
        · exact hsegs x (by simp [h])
      have hdir := Dir_absPath_snoc (anc ++ segs) c hpre hc
      have hbase := Base_absPath_snoc (anc ++ segs) c hc
      rw [List.append_assoc] at hdir hbase
      simp only [MkdirAll.probe, hw, herr, hne, if_true, hdir, hbase]
      rw [ih (fun x hx => hsegs x (by simp [hx]))
        (fun pre hp hn => hmiss pre (hp.trans (List.prefix_append _ _)) hn)
        fuel (w.log (.DirByPath (absPath (anc ++ (segs ++ [c]))))) (dirs ++ [c])
        (by simpa [World.log] using hw) (by simpa using hfuel)]
      simp [probeCalls_snoc, World.log, hw]

/-- The second loop of `MkdirAll` when every element is a legal name and every
`CreateDir` call of the loop succeeds. -/
theorem MkdirAll.create_chain (fs : VFS σ) (clock : Nat → Time) :
    ∀ (segs : List String) (A : DirDoc) (w : World σ),
      (∀ s ∈ segs, checkFileName s = none) →
      CreateCallsSucceed fs clock segs A w.st w.ticks →
      ∃ (built created : List DirDoc) (w1 : World σ),
        MkdirAll.create fs clock segs A w = (.ok (created.getLast?.getD A), w1) ∧
        w1.trace = w.trace ++ built.map Call.CreateDir ∧
        CreatedChain fs A segs built created := by
  intro segs
  induction segs with
  | nil =>
    intro A w _ _
    exact ⟨[], [], w, by simp [MkdirAll.create], by simp, by simp [CreatedChain]⟩
  | cons s ss ih =>
    intro A w hlegal hrun
    have hs : checkFileName s = none := hlegal s (by simp)
    have hnew : ∃ b, NewDirDocWithParent (clock w.ticks) s A [] = .ok b := by
      simp [NewDirDocWithParent, hs]
    obtain ⟨b, hb⟩ := hnew
    simp only [CreateCallsSucceed, hb] at hrun
    cases hcd : fs.CreateDir w.st b with
    | mk r st1 =>
      rw [hcd] at hrun
      cases r with
      | error err => exact absurd hrun (by simp)
      | ok c =>
        simp only [] at hrun
        obtain ⟨built, created, w1, h1, h2, h3⟩ :=
          ih c { st := st1, trace := w.trace ++ [Call.CreateDir b], ticks := w.ticks + 1 }
            (fun x hx => hlegal x (by simp [hx])) hrun
        refine ⟨b :: built, c :: created, w1, ?_, ?_, ?_⟩
        · simp only [MkdirAll.create, World.now, hb, hcd, World.log]
          rw [h1, List.getLast?_cons]
          simp
        · simp [h2]
        · exact ⟨⟨_, hb⟩, ⟨w.st, by rw [hcd]⟩, h3⟩

theorem CreatedChain.length_eq (fs : VFS σ) :
    ∀ (segs : List String) (A : DirDoc) (built created : List DirDoc),
      CreatedChain fs A segs built created →
      built.length = segs.length ∧ created.length = segs.length := by
  intro segs
  induction segs with
  | nil =>
    intro A built created h
    cases built <;> cases created <;> simp_all [CreatedChain]
  | cons s ss ih =>
    intro A built created h
    cases built with
    | nil => cases created <;> simp [CreatedChain] at h
    | cons b bs =>
      cases created with
      | nil => simp [CreatedChain] at h
      | cons c cs =>
        obtain ⟨_, _, h3⟩ := h
        have := ih c bs cs h3
        simp [this.1, this.2]

end MkdirAllLemmas

/-- Both loops of `MkdirAll` on `anc/segs`, when `anc` is a directory, no longer
ancestor is, every element is a legal name and every `CreateDir` call succeeds. -/
theorem MkdirAll.chain {σ : Type} (fs : VFS σ) (clock : Nat → Time)
    (fuel : Nat) (w : World σ) (anc segs : List String) (A : DirDoc) (tags : List String)
    (hanc : ∀ c ∈ anc, IsElem c) (hsegs : ∀ c ∈ segs, IsElem c)
    (hA : fs.DirByPath w.st (absPath anc) = .ok A)
    (hmiss : ∀ pre, pre <+: segs → pre ≠ [] →
      ∃ err, fs.DirByPath w.st (absPath (anc ++ pre)) = .error err ∧ os.IsNotExist err = true)
    (hlegal : ∀ s ∈ segs, checkFileName s = none)
    (hrun : CreateCallsSucceed fs clock segs A w.st w.ticks)
    (hfuel : segs.length < fuel) :
    ∃ (built created : List DirDoc) (w1 : World σ),
      MkdirAll fs clock fuel w (absPath (anc ++ segs)) tags =
        some (.ok (created.getLast?.getD A), w1) ∧
      w1.trace = w.trace ++ probeCalls anc segs ++ built.map Call.CreateDir ∧
      built.length = segs.length ∧
      CreatedChain fs A segs built created := by
  have hprobe := MkdirAll.probe_chain fs w.st anc A hanc hA segs hsegs hmiss fuel w [] rfl hfuel
  obtain ⟨built, created, w1, h1, h2, h3⟩ :=
    MkdirAll.create_chain fs clock segs A
      { w with trace := w.trace ++ probeCalls anc segs } hlegal hrun
  refine ⟨built, created, w1, ?_, ?_, (CreatedChain.length_eq fs segs A built created h3).1, h3⟩
  · simp only [MkdirAll, hprobe, List.nil_append, List.reverse_reverse, h1]
  · simpa using h2

/-- C1 (amended): on a path `anc/segs` of which `anc` is a directory and no longer
ancestor is, with every element of `segs` a legal file name and every `CreateDir`
call of the run succeeding, `MkdirAll` probes the path and its ancestors down to
`anc`, then issues exactly one `CreateDir` per element of `segs`, top-down, the
first document built with parent `anc` and each next one with the document
`CreateDir` left for the one before, and returns the last of them (`anc` itself,
with no `CreateDir`, when `segs` is empty). -/
theorem MkdirAll_creates_missing_segments {σ : Type} (fs : VFS σ) (clock : Nat → Time)
    (fuel : Nat) (w : World σ) (anc segs : List String) (A : DirDoc) (tags : List String)
    (hanc : ∀ c ∈ anc, IsElem c) (hsegs : ∀ c ∈ segs, IsElem c)
    (hA : fs.DirByPath w.st (absPath anc) = .ok A)
    (hmiss : ∀ pre, pre <+: segs → pre ≠ [] →
      ∃ err, fs.DirByPath w.st (absPath (anc ++ pre)) = .error err ∧ os.IsNotExist err = true)
    (hlegal : ∀ s ∈ segs, checkFileName s = none)
    (hrun : CreateCallsSucceed fs clock segs A w.st w.ticks)
    (hfuel : segs.length < fuel) :
    ∃ (built created : List DirDoc) (w1 : World σ),
      MkdirAll fs clock fuel w (absPath (anc ++ segs)) tags =
        some (.ok (created.getLast?.getD A), w1) ∧
      w1.trace = w.trace ++ probeCalls anc segs ++ built.map Call.CreateDir ∧
      built.length = segs.length ∧
      CreatedChain fs A segs built created := by
  have hprobe := MkdirAll.probe_chain fs w.st anc A hanc hA segs hsegs hmiss fuel w [] rfl hfuel
  obtain ⟨built, created, w1, h1, h2, h3⟩ :=
    MkdirAll.create_chain fs clock segs A
      { w with trace := w.trace ++ probeCalls anc segs } hlegal hrun
  have hlen := (CreatedChain.length_eq fs segs A built created h3).1
  refine ⟨built, created, w1, ?_, ?_, hlen, h3⟩
  · simp only [MkdirAll, hprobe, List.nil_append, List.reverse_reverse, h1]
  · simpa using h2

theorem memRoot_lookup (name : String) (h : name ≠ "/") :
    (Mem.fs false).DirByPath memRoot name = .error Error.ErrNotExist := by
  have : (name == "/") = false := by
    simp only [beq_eq_false_iff_ne]
    exact h
  simp [Mem.fs, memRoot, List.lookup, this]

/-- C1, witness: on a store holding only the root, over the backend that refuses
a document whose parent is not stored, `MkdirAll("/a/b/c", nil)` creates `a`,
`b`, `c` in that order, each under the one before, and returns `c`; a second
call on the resulting store creates nothing and returns `c` again. -/
theorem MkdirAll_creates_missing_segments_witness :
    (∃ (built created : List DirDoc) (w1 : World Mem),
      MkdirAll Mem.strictFs tickClock 4 (World.init memRoot) (absPath ([] ++ ["a", "b", "c"])) [] =
        some (.ok (created.getLast?.getD exRoot), w1) ∧
      w1.trace = (World.init memRoot).trace ++ probeCalls [] ["a", "b", "c"] ++
        built.map Call.CreateDir ∧
      built.length = ["a", "b", "c"].length ∧
      CreatedChain Mem.strictFs exRoot ["a", "b", "c"] built created) ∧
    (MkdirAll Mem.strictFs tickClock 4 (World.init memRoot) "/a/b/c" []).map
        (fun r => (r.1.toOption.map (fun d => (d.DocName, d.DirID)),
          (r.2.trace.filter Call.isCreateDir).map (fun c =>
            match c with
            | .CreateDir d => (d.DocName, d.DirID)
            | _ => ("", "")))) =
      some (some ("c", "/a/b"), [("a", "root-id"), ("b", "/a"), ("c", "/a/b")]) ∧
    ((MkdirAll Mem.strictFs tickClock 4 (World.init memRoot) "/a/b/c" []).bind
        (fun r => MkdirAll Mem.strictFs tickClock 4 (World.init r.2.st) "/a/b/c" [])).map
        (fun r => (r.1.toOption.map (fun d => (d.DocName, d.DirID)), r.2.trace)) =
      some (some ("c", "/a/b"), [Call.DirByPath "/a/b/c"]) ∧
    (Mem.strictFs.CreateDir memRoot (exDir "" "a" "nowhere" "/a")).1.toOption = none :=
  ⟨MkdirAll_creates_missing_segments Mem.strictFs tickClock 4 (World.init memRoot) []
    ["a", "b", "c"] exRoot []
    (by simp)
    (by
      intro c hc
      simp only [List.mem_cons, List.mem_singleton, List.not_mem_nil, or_false] at hc
      rcases hc with rfl | rfl | rfl <;> simp [IsElem, path.IsElemL])
    (by rfl)
    (by
      intro pre hp hne
      refine ⟨Error.ErrNotExist, ?_, rfl⟩
      have hmem : pre ∈ ["a", "b", "c"].inits := (List.mem_inits _ _).2 hp
      simp only [List.inits, List.mem_cons, List.mem_singleton] at hmem
      show (Mem.fs false).DirByPath memRoot _ = _
      apply memRoot_lookup
      simp [List.inits] at hmem
      rcases hmem with rfl | rfl | rfl | rfl
      · exact absurd rfl hne
      · decide
      · decide
      · decide)
    (by
      intro s hs
      simp only [List.mem_cons, List.mem_singleton, List.not_mem_nil, or_false] at hs
      rcases hs with rfl | rfl | rfl <;> decide)
    trivial
    (by decide),
    by rfl, by rfl, by rfl⟩

/-- C1, counterexample: on a read-only store holding only the root, `/a/b` has
the two missing segments `a` and `b` below the existing `/`, and `MkdirAll`
issues a single `CreateDir` call and returns the error of the backend. -/
theorem MkdirAll_stops_at_failed_CreateDir :
    (Mem.fs true).DirByPath memRoot "/" = .ok exRoot ∧
    (Mem.fs true).DirByPath memRoot "/a" = .error Error.ErrNotExist ∧
    (Mem.fs true).DirByPath memRoot "/a/b" = .error Error.ErrNotExist ∧
    path.Clean "/a/b" = "/a/b" ∧
    (MkdirAll (Mem.fs true) tickClock 10 (World.init memRoot) "/a/b" []).map
        (fun r => (r.1, (r.2.trace.filter Call.isCreateDir).length)) =
      some (.error (Error.backend 30 false), 1) := by
  refine ⟨rfl, rfl, rfl, by decide, by rfl⟩


/-! ### `Rename` -/

/-- C2, the code at the failing input: moving `/a/f` to `/b/f` resolves the new
parent `/b`, whose identifier is `id-b`, and hands the file metadata update a
patch whose `DirID` is `root-id`, the `DirID` field of `/b`, that is the
identifier of the parent of `/b`. -/
theorem Rename_patch_DirID_is_parent_of_new_parent :
    (Mem.fs false).DirByPath memTwoDirs (path.Dir "/b/f") = .ok (exDir "id-b" "b" "root-id" "/b") ∧
    (exDir "id-b" "b" "root-id" "/b").ID = "id-b" ∧
    (Rename (Mem.fs false) Mem.out (World.init memTwoDirs) "/a/f" "/b/f").2.trace =
      [Call.DirOrFileByPath "/a/f", Call.DirByPath "/b",
        Call.ModifyFileMetadata (exFile "id-f" "f" "id-a")
          { Name := some "f", DirID := some "root-id", RestorePath := none, Tags := none,
            UpdatedAt := none, Executable := none }] := by
  refine ⟨by rfl, by rfl, by rfl⟩

/-! ### `Remove` -/

/-- C3: `Remove` on a directory whose emptiness probe reports non-empty returns
`ErrDirNotEmpty` after the lookup and the probe, with no destroy operation and the
backend state unchanged; on an empty directory it calls `DestroyDirAndContent` on
that directory and on a file `DestroyFile` on that file, returning what they
return; an error of the lookup or of the probe is returned as it is, with no
destroy operation. -/
theorem Remove_destroys_only_files_and_empty_directories {σ : Type} (fs : VFS σ)
    (out : Outside σ) (w : World σ) (name : String) :
    (∀ dir, fs.DirOrFileByPath w.st name = .ok (.inl dir) → out.IsEmpty w.st dir = .ok false →
      Remove fs out w name =
        (some Error.ErrDirNotEmpty,
          { w with trace := w.trace ++ [Call.DirOrFileByPath name, Call.IsEmpty dir] })) ∧
    (∀ dir, fs.DirOrFileByPath w.st name = .ok (.inl dir) → out.IsEmpty w.st dir = .ok true →
      Remove fs out w name =
        ((fs.DestroyDirAndContent w.st dir).1,
          { w with
            st := (fs.DestroyDirAndContent w.st dir).2
            trace := w.trace ++ [Call.DirOrFileByPath name, Call.IsEmpty dir,
              Call.DestroyDirAndContent dir] })) ∧
    (∀ file, fs.DirOrFileByPath w.st name = .ok (.inr file) →
      Remove fs out w name =
        ((fs.DestroyFile w.st file).1,
          { w with
            st := (fs.DestroyFile w.st file).2
            trace := w.trace ++ [Call.DirOrFileByPath name, Call.DestroyFile file] })) ∧
    (∀ err, fs.DirOrFileByPath w.st name = .error err →
      Remove fs out w name =
        (some err, { w with trace := w.trace ++ [Call.DirOrFileByPath name] })) ∧
    (∀ dir err, fs.DirOrFileByPath w.st name = .ok (.inl dir) →
      out.IsEmpty w.st dir = .error err →
      Remove fs out w name =
        (some err, { w with trace := w.trace ++ [Call.DirOrFileByPath name, Call.IsEmpty dir] })) := by
  refine ⟨?_, ?_, ?_, ?_, ?_⟩
  · intro dir h1 h2
    simp [Remove, h1, h2, World.log]
  · intro dir h1 h2
    simp [Remove, h1, h2, World.log]
  · intro file h1
    simp [Remove, h1, World.log]
  · intro err h1
    simp [Remove, h1, World.log]
  · intro dir err h1 h2
    simp [Remove, h1, h2, World.log]

/-- C3, witness: in a store where `/a` holds the file `/a/f`, `Remove` refuses
`/a`, destroys the file `/a/f` and the empty directory `/b`, and returns the
lookup error for a path that resolves to nothing. -/
theorem Remove_destroys_only_files_and_empty_directories_witness :
    Remove (Mem.fs false) Mem.out (World.init memTwoDirs) "/a" =
      (some Error.ErrDirNotEmpty,
        { World.init memTwoDirs with
          trace := [] ++ [Call.DirOrFileByPath "/a",
            Call.IsEmpty (exDir "id-a" "a" "root-id" "/a")] }) ∧
    (Remove (Mem.fs false) Mem.out (World.init memTwoDirs) "/b").2.trace =
      [Call.DirOrFileByPath "/b", Call.IsEmpty (exDir "id-b" "b" "root-id" "/b"),
        Call.DestroyDirAndContent (exDir "id-b" "b" "root-id" "/b")] ∧
    (Remove (Mem.fs false) Mem.out (World.init memTwoDirs) "/a/f").2.trace =
      [Call.DirOrFileByPath "/a/f", Call.DestroyFile (exFile "id-f" "f" "id-a")] ∧
    Remove (Mem.fs false) Mem.out (World.init memTwoDirs) "/c" =
      (some Error.ErrNotExist,
        { World.init memTwoDirs with trace := [] ++ [Call.DirOrFileByPath "/c"] }) := by
  have h := Remove_destroys_only_files_and_empty_directories (Mem.fs false) Mem.out
    (World.init memTwoDirs)
  refine ⟨(h "/a").1 _ (by rfl) (by rfl), ?_, ?_, (h "/c").2.2.2.1 _ (by rfl)⟩
  · rw [(h "/b").2.1 _ (by rfl) (by rfl)]
    rfl
  · rw [(h "/a/f").2.2.1 _ (by rfl)]
    rfl

/-! ### `OpenFile` and `Create` -/

/-- C4, the code at the failing input: `Create` on the path of an existing file
passes the flag checks, finds the file, and calls the backend's `CreateFile` with
a new document and the existing document as the one to replace, returning the
handle the backend gives. -/
theorem Create_on_existing_file_calls_CreateFile :
    (Mem.fs false).FileByPath memOneFile (path.Clean "/f") = .ok (exFile "id-f" "f" "root-id") ∧
    (Create (Mem.fs false) noMime tickClock (World.init memOneFile) "/f").1 = .ok 1 ∧
    (Create (Mem.fs false) noMime tickClock (World.init memOneFile) "/f").2.trace =
      [Call.FileByPath "/f",
        Call.CreateFile
          { DocType := consts.FileType, DocID := "", DocRev := "", DocName := "f",
            DirID := "root-id", RestorePath := "", CreatedAt := 0, UpdatedAt := 0,
            ByteSize := -1, MD5Sum := [], Mime := "application/octet-stream",
            Class := "application", Executable := false, Tags := [], Metadata := [] }
          (some (exFile "id-f" "f" "root-id"))] := by
  refine ⟨by rfl, by rfl, by rfl⟩

/-- C5: when the `O_RDWR` bit or the `O_APPEND` bit of the flag is set, or the
`O_CREATE` bit is set and the `O_EXCL` bit is not, `OpenFile` returns
`os.ErrInvalid` and leaves the world as it was: no call is made. -/
theorem OpenFile_rejects_disallowed_modes {σ : Type} (fs : VFS σ)
    (TypeByExtension : String → String) (clock : Nat → Time) (w : World σ) (name : String)
    (flag : Int) (perm : Nat)
    (h : os.band flag os.O_RDWR ≠ 0 ∨ os.band flag os.O_APPEND ≠ 0 ∨
      (os.band flag os.O_CREATE ≠ 0 ∧ os.band flag os.O_EXCL = 0)) :
    OpenFile fs TypeByExtension clock w name flag perm = (.error Error.ErrInvalid, w) := by
  unfold OpenFile
  by_cases h1 : os.band flag os.O_RDWR ≠ 0 ∨ os.band flag os.O_APPEND ≠ 0
  · rw [if_pos h1]
  · rw [if_neg h1]
    have h2 : os.band flag os.O_CREATE ≠ 0 ∧ os.band flag os.O_EXCL = 0 := by
      rcases h with h | h | h
      · exact absurd (Or.inl h) h1
      · exact absurd (Or.inr h) h1
      · exact h
    rw [if_pos h2]

/-- C5, witness: opening with `O_CREATE` alone (no `O_EXCL`) is rejected. -/
theorem OpenFile_rejects_disallowed_modes_witness :
    (os.band 64 os.O_RDWR ≠ 0 ∨ os.band 64 os.O_APPEND ≠ 0 ∨
      (os.band 64 os.O_CREATE ≠ 0 ∧ os.band 64 os.O_EXCL = 0)) ∧
    OpenFile (Mem.fs false) noMime tickClock (World.init memOneFile) "/f" 64 420 =
      (.error Error.ErrInvalid, World.init memOneFile) :=
  ⟨by decide,
    OpenFile_rejects_disallowed_modes (Mem.fs false) noMime tickClock (World.init memOneFile)
      "/f" 64 420 (by decide)⟩

/-! ### `getRestoreDir` -/

/-- C9, the code at the failing input: `/.cozy_trashcan/f` is neither the trash
root nor below it, and `getRestoreDir` does not fail with `ErrFileNotInTrash`: it
looks the restore path up and returns its directory. -/
theorem getRestoreDir_accepts_sibling_of_trash :
    ("/.cozy_trashcan/f" ≠ TrashDirName) ∧
    strings.HasPrefix "/.cozy_trashcan/f" (TrashDirName ++ "/") = false ∧
    getRestoreDir (Mem.fs false) tickClock 10 (World.init memDocuments) "/.cozy_trashcan/f"
        "/Documents" =
      some (.ok (exDir "id-docs" "Documents" "root-id" "/Documents"),
        { World.init memDocuments with trace := [Call.DirByPath "/Documents"] }) := by
  refine ⟨by decide, by rfl, by rfl⟩

/-- C8 (amended): for the name `/.cozy_trash/root/tail` and no restore path
given, when the directory `/.cozy_trash/root` is named `root` and stores the
restore path `r`, `getRestoreDir` looks up `path.Join(r, root, path.Dir(tail))`:
it returns that directory when it exists; when the lookup reports not-exist it
returns what `MkdirAll` returns for that path, and that is the last of the
directories created for the missing elements of the path when the path is
`anc/segs` with `anc` a directory and no longer ancestor one, every element of
`segs` is a legal file name and every `CreateDir` call of the run succeeds. For
`/.cozy_trash/foo/bar/baz` and `/Documents` the path is `/Documents/foo/bar`. -/
theorem getRestoreDir_derives_target {σ : Type} (fs : VFS σ) (clock : Nat → Time)
    (fuel : Nat) (w : World σ) (root tail : String) (doc : DirDoc)
    (hroot : '/' ∉ root.data)
    (hdoc : fs.DirByPath w.st (TrashDirName ++ "/" ++ root) = .ok doc)
    (hname : doc.DocName = root) (hr : doc.RestorePath ≠ "") :
    (∀ d, fs.DirByPath w.st (path.Join [doc.RestorePath, root, path.Dir tail]) = .ok d →
      getRestoreDir fs clock fuel w (TrashDirName ++ "/" ++ root ++ "/" ++ tail) "" =
        some (.ok d,
          { w with trace := w.trace ++ [Call.DirByPath (TrashDirName ++ "/" ++ root),
              Call.DirByPath (path.Join [doc.RestorePath, root, path.Dir tail])] })) ∧
    (∀ err, fs.DirByPath w.st (path.Join [doc.RestorePath, root, path.Dir tail]) = .error err →
      os.IsNotExist err = true →
      getRestoreDir fs clock fuel w (TrashDirName ++ "/" ++ root ++ "/" ++ tail) "" =
        MkdirAll fs clock fuel
          { w with trace := w.trace ++ [Call.DirByPath (TrashDirName ++ "/" ++ root),
              Call.DirByPath (path.Join [doc.RestorePath, root, path.Dir tail])] }
          (path.Join [doc.RestorePath, root, path.Dir tail]) []) ∧
    (∀ (anc segs : List String) (A : DirDoc),
      path.Join [doc.RestorePath, root, path.Dir tail] = absPath (anc ++ segs) → segs ≠ [] →
      (∀ c ∈ anc, IsElem c) → (∀ c ∈ segs, IsElem c) →
      fs.DirByPath w.st (absPath anc) = .ok A →
      (∀ pre, pre <+: segs → pre ≠ [] →
        ∃ err, fs.DirByPath w.st (absPath (anc ++ pre)) = .error err ∧ os.IsNotExist err = true) →
      (∀ s ∈ segs, checkFileName s = none) →
      CreateCallsSucceed fs clock segs A w.st w.ticks →
      segs.length < fuel →
      ∃ (built created : List DirDoc) (w1 : World σ),
        getRestoreDir fs clock fuel w (TrashDirName ++ "/" ++ root ++ "/" ++ tail) "" =
          some (.ok (created.getLast?.getD A), w1) ∧
        w1.trace = w.trace ++ [Call.DirByPath (TrashDirName ++ "/" ++ root),
            Call.DirByPath (path.Join [doc.RestorePath, root, path.Dir tail])] ++
          probeCalls anc segs ++ built.map Call.CreateDir ∧
        built.length = segs.length ∧
        CreatedChain fs A segs built created) ∧
    path.Join ["/Documents", "foo", path.Dir "bar/baz"] = "/Documents/foo/bar" := by
  have hdata : (TrashDirName ++ "/" ++ root ++ "/" ++ tail).data =
      (TrashDirName ++ "/").data ++ (root.data ++ '/' :: tail.data) := by
    simp [String.data_append]
  have hts : (TrashDirName ++ "/").data = TrashDirName.data ++ ['/'] := rfl
  have hpre : strings.HasPrefix (TrashDirName ++ "/" ++ root ++ "/" ++ tail) TrashDirName = true := by
    simp only [strings.HasPrefix, hdata, hts, List.isPrefixOf_iff_prefix, List.append_assoc]
    exact List.prefix_append _ _
  have htrim : strings.TrimPrefix (TrashDirName ++ "/" ++ root ++ "/" ++ tail) (TrashDirName ++ "/") =
      ⟨root.data ++ '/' :: tail.data⟩ := by
    have h1 : strings.HasPrefix (TrashDirName ++ "/" ++ root ++ "/" ++ tail) (TrashDirName ++ "/") = true := by
      simp only [strings.HasPrefix, hdata, List.isPrefixOf_iff_prefix]
      exact List.prefix_append _ _
    simp only [strings.TrimPrefix, h1, if_true, hdata, List.drop_left]
  have hidx : strings.Index ⟨root.data ++ '/' :: tail.data⟩ "/" = (root.data.length : Int) := by
    have := strings.indexFrom_slash root.data tail.data hroot 0
    simpa [strings.Index] using this
  have hto : strings.sliceTo ⟨root.data ++ '/' :: tail.data⟩ (root.data.length : Int) = root := by
    simp [strings.sliceTo]
  have hfrom : strings.sliceFrom ⟨root.data ++ '/' :: tail.data⟩ ((root.data.length : Int) + 1) = tail := by
    have h1 : ((root.data.length : Int) + 1).toNat = root.data.length + 1 := by omega
    have h2 : root.data ++ '/' :: tail.data = (root.data ++ ['/']) ++ tail.data := by simp
    simp only [strings.sliceFrom, h1]
    rw [h2, List.drop_left' (by simp)]
  have hj : path.Join [doc.RestorePath, root, path.Dir tail] ≠ "" := path.Join_ne_empty _ _ hr
  have hge : (root.data.length : Int) ≥ 0 := by omega
  have hmk : ∀ err, fs.DirByPath w.st (path.Join [doc.RestorePath, root, path.Dir tail]) = .error err →
      os.IsNotExist err = true →
      getRestoreDir fs clock fuel w (TrashDirName ++ "/" ++ root ++ "/" ++ tail) "" =
        MkdirAll fs clock fuel
          { w with trace := w.trace ++ [Call.DirByPath (TrashDirName ++ "/" ++ root),
              Call.DirByPath (path.Join [doc.RestorePath, root, path.Dir tail])] }
          (path.Join [doc.RestorePath, root, path.Dir tail]) [] := by
    intro err hd hne
    simp only [getRestoreDir, hpre, Bool.not_true, Bool.false_eq_true, if_false, if_true, htrim,
      hidx, hge, hto, hfrom, hdoc, hr, hname, ne_eq, not_false_eq_true, hj, World.log, hd, hne]
    simp
  refine ⟨?_, hmk, ?_, by decide⟩
  · intro d hd
    simp only [getRestoreDir, hpre, Bool.not_true, Bool.false_eq_true, if_false, if_true, htrim,
      hidx, hge, hto, hfrom, hdoc, hr, hname, ne_eq, not_false_eq_true, hj, World.log, hd]
    simp
  · intro anc segs A htarget hne hanc hsegs hA hmiss hlegal hrun hfuel
    obtain ⟨err, herr, hnot⟩ := hmiss segs (List.prefix_refl _) hne
    rw [← htarget] at herr
    rw [hmk err herr hnot, htarget]
    obtain ⟨built, created, w1, h1, h2, h3, h4⟩ := MkdirAll.chain fs clock fuel
      { w with trace := w.trace ++ [Call.DirByPath (TrashDirName ++ "/" ++ root),
          Call.DirByPath (absPath (anc ++ segs))] }
      anc segs A [] hanc hsegs hA hmiss hlegal hrun hfuel
    exact ⟨built, created, w1, h1, h2, h3, h4⟩

/-- C8, witness: for `/.cozy_trash/foo/bar/baz`, `foo` storing the restore path
`/Documents`, in a store where `/Documents` does not exist, over the backend that
refuses a document whose parent is not stored, `getRestoreDir` returns what
`MkdirAll` returns for `/Documents/foo/bar`: the directories `Documents`, `foo`
and `bar` are created and the document of `bar` is returned. -/
theorem getRestoreDir_derives_target_witness :
    (∃ (built created : List DirDoc) (w1 : World Mem),
      getRestoreDir Mem.strictFs tickClock 10 (World.init memTrash)
          (TrashDirName ++ "/" ++ "foo" ++ "/" ++ "bar/baz") "" =
        some (.ok (created.getLast?.getD exRoot), w1) ∧
      w1.trace = (World.init memTrash).trace ++
          [Call.DirByPath (TrashDirName ++ "/" ++ "foo"),
            Call.DirByPath (path.Join [exTrashedFoo.RestorePath, "foo", path.Dir "bar/baz"])] ++
          probeCalls [] ["Documents", "foo", "bar"] ++ built.map Call.CreateDir ∧
      built.length = ["Documents", "foo", "bar"].length ∧
      CreatedChain Mem.strictFs exRoot ["Documents", "foo", "bar"] built created) ∧
    (getRestoreDir Mem.strictFs tickClock 10 (World.init memTrash)
        "/.cozy_trash/foo/bar/baz" "").map
        (fun r => (r.1.toOption.map (fun d => d.Fullpath),
          (r.2.trace.filter Call.isCreateDir).length)) =
      some (some "/Documents/foo/bar", 3) :=
  ⟨(getRestoreDir_derives_target Mem.strictFs tickClock 10 (World.init memTrash) "foo"
      "bar/baz" exTrashedFoo (by decide) (by rfl) (by rfl) (by decide)).2.2.1
      [] ["Documents", "foo", "bar"] exRoot (by rfl) (by decide) (by simp)
      (by
        intro c hc
        simp only [List.mem_cons, List.mem_singleton, List.not_mem_nil, or_false] at hc
        rcases hc with rfl | rfl | rfl <;> simp [IsElem, path.IsElemL])
      (by rfl)
      (by
        intro pre hp hne
        have hmem : pre ∈ ["Documents", "foo", "bar"].inits := (List.mem_inits _ _).2 hp
        simp [List.inits] at hmem
        rcases hmem with rfl | rfl | rfl | rfl
        · exact absurd rfl hne
        · exact ⟨Error.ErrNotExist, by rfl, rfl⟩
        · exact ⟨Error.ErrNotExist, by rfl, rfl⟩
        · exact ⟨Error.ErrNotExist, by rfl, rfl⟩)
      (by
        intro s hs
        simp only [List.mem_cons, List.mem_singleton, List.not_mem_nil, or_false] at hs
        rcases hs with rfl | rfl | rfl <;> decide)
      trivial
      (by decide),
    by rfl⟩

/-- C8, counterexample: on a read-only store where `/.cozy_trash/foo` is named
`foo` and stores the restore path `/Documents`, and `/Documents/foo/bar` does not
exist, `getRestoreDir` for `/.cozy_trash/foo/bar/baz` makes one `CreateDir` call
and returns the error of the backend: no leaf is created or returned. -/
theorem getRestoreDir_returns_error_of_CreateDir :
    (Mem.fs true).DirByPath memTrash (TrashDirName ++ "/" ++ "foo") = .ok exTrashedFoo ∧
    exTrashedFoo.DocName = "foo" ∧
    exTrashedFoo.RestorePath = "/Documents" ∧
    path.Join ["/Documents", "foo", path.Dir "bar/baz"] = "/Documents/foo/bar" ∧
    (Mem.fs true).DirByPath memTrash "/Documents/foo/bar" = .error Error.ErrNotExist ∧
    (getRestoreDir (Mem.fs true) tickClock 10 (World.init memTrash)
        "/.cozy_trash/foo/bar/baz" "").map
        (fun r => (r.1, (r.2.trace.filter Call.isCreateDir).length)) =
      some (.error (Error.backend 30 false), 1) := by
  refine ⟨by rfl, by rfl, by rfl, by decide, by rfl, by rfl⟩

/-! ### `checkFileName` -/

/-- C10: `checkFileName` returns `ErrIllegalFilename` exactly for the empty
string and the strings holding a slash, NUL, LF or CR, and `nil` for every other
string; it rejects the empty string, `a/b`, `a` NUL `b`, `a` LF `b`, and accepts
`normal-name.txt`. -/
theorem checkFileName_illegal_iff :
    (∀ s : String,
      (checkFileName s = some Error.ErrIllegalFilename ↔
        (s = "" ∨ ∃ c ∈ s.data, c = '/' ∨ c = Char.ofNat 0 ∨ c = '\n' ∨ c = '\r')) ∧
      (checkFileName s = none ↔
        ¬ (s = "" ∨ ∃ c ∈ s.data, c = '/' ∨ c = Char.ofNat 0 ∨ c = '\n' ∨ c = '\r'))) ∧
    checkFileName "" = some Error.ErrIllegalFilename ∧
    checkFileName "a/b" = some Error.ErrIllegalFilename ∧
    checkFileName ⟨['a', Char.ofNat 0, 'b']⟩ = some Error.ErrIllegalFilename ∧
    checkFileName "a\nb" = some Error.ErrIllegalFilename ∧
    checkFileName "normal-name.txt" = none := by
  refine ⟨?_, by decide, by decide, by decide, by decide, by decide⟩
  intro s
  have hc : strings.ContainsAny s ForbiddenFilenameChars = true ↔
      ∃ c ∈ s.data, c = '/' ∨ c = Char.ofNat 0 ∨ c = '\n' ∨ c = '\r' := by
    simp [strings.ContainsAny, ForbiddenFilenameChars, List.any_eq_true]
  unfold checkFileName
  rw [str_eq_empty_iff, ← hc]
  by_cases h : s.data = [] ∨ strings.ContainsAny s ForbiddenFilenameChars = true
  · simp [h]
  · simp [h]

/-! ### `Walk` -/

namespace Tree

theorem prune_node (skip : DirDoc → Bool) (t : Tree) : (prune skip t).node = t.node := by
  cases t with
  | dir d cs =>
    simp only [prune]
    split <;> rfl
  | file f => rfl

theorem depth_le_of_mem (cs : List Tree) (n : Nat) (h : depthList cs ≤ n) :
    ∀ c ∈ cs, depth c ≤ n := by
  induction cs with
  | nil => simp
  | cons x xs ih =>
    simp only [depthList, max_le_iff] at h
    intro c hc
    simp only [List.mem_cons] at hc
    rcases hc with rfl | hc
    · exact h.1
    · exact ih h.2 c hc

mutual
theorem prune_never (t : Tree) : prune (fun _ => false) t = t :=
  match t with
  | .dir d cs => by simp [prune, pruneList_never cs]
  | .file f => by simp [prune]
theorem pruneList_never (cs : List Tree) : pruneList (fun _ => false) cs = cs :=
  match cs with
  | [] => by simp [pruneList]
  | c :: cs => by simp [pruneList, prune_never c, pruneList_never cs]
end

mutual
theorem preorder_length (name : String) (t : Tree) :
    (preorder name t).length = countDirs t + countFiles t :=
  match t with
  | .dir d cs => by
    simp only [preorder, List.length_cons, countDirs, countFiles, preorderList_length name cs]
    omega
  | .file f => by simp [preorder, countDirs, countFiles]
theorem preorderList_length (name : String) (cs : List Tree) :
    (preorderList name cs).length = countDirsList cs + countFilesList cs :=
  match cs with
  | [] => by simp [preorderList, countDirsList, countFilesList]
  | c :: cs => by
    simp only [preorderList, List.length_append, countDirsList, countFilesList,
      preorder_length _ c, preorderList_length name cs]
    omega
end

mutual
theorem preorder_prune_sublist (skip : DirDoc → Bool) (name : String) (t : Tree) :
    List.Sublist (preorder name (prune skip t)) (preorder name t) :=
  match t with
  | .dir d cs => by
    simp only [prune]
    split
    · simp [preorder, preorderList]
    · simp only [preorder]
      exact List.Sublist.cons₂ _ (preorderList_prune_sublist skip name cs)
  | .file f => by simp [prune]
theorem preorderList_prune_sublist (skip : DirDoc → Bool) (name : String) (cs : List Tree) :
    List.Sublist (preorderList name (pruneList skip cs)) (preorderList name cs) :=
  match cs with
  | [] => by simp [pruneList]
  | c :: cs => by
    simp only [pruneList, preorderList, prune_node]
    exact List.Sublist.append (preorder_prune_sublist skip _ c)
      (preorderList_prune_sublist skip name cs)
end


end Tree

section WalkLemmas

variable {σ τ : Type}

/-- The loop of `walk` over the children of a directory, when the recursive call
visits each child in pre-order without error. -/
theorem walkLoop_children (walkFn : WalkFn τ) (skip : DirDoc → Bool)
    (rec : String → Node → WalkState σ τ → Option (Option Error × WalkState σ τ))
    (name : String) (st : σ) :
    ∀ (cs : List Tree) (ws : WalkState σ τ), ws.world.st = st →
      (∀ c ∈ cs, ∀ (n : String) (ws0 : WalkState σ τ), ws0.world.st = st →
        ∃ ws1, rec n c.node ws0 = some (none, ws1) ∧
          ws1.visits = ws0.visits ++ Tree.preorder n (Tree.prune skip c) ∧ ws1.world.st = st) →
      ∃ ws1, walkLoop walkFn rec name (cs.map (fun c => Except.ok c.node)) ws = some (none, ws1) ∧
        ws1.visits = ws.visits ++ Tree.preorderList name (Tree.pruneList skip cs) ∧
        ws1.world.st = st := by
  intro cs
  induction cs with
  | nil =>
    intro ws hws _
    exact ⟨ws, by simp [walkLoop], by simp [Tree.pruneList, Tree.preorderList], hws⟩
  | cons c cs ih =>
    intro ws hws hrec
    obtain ⟨ws1, h1, h2, h3⟩ := hrec c (by simp) (path.Join [name, c.node.DocName]) ws hws
    obtain ⟨ws2, h4, h5, h6⟩ := ih ws1 h3 (fun x hx => hrec x (by simp [hx]))
    refine ⟨ws2, ?_, ?_, h6⟩
    · simp only [List.map_cons, walkLoop, h1, h4]
    · simp only [h5, h2, Tree.pruneList, Tree.preorderList, Tree.prune_node, List.append_assoc]

/-- The recursion of `Walk` on a tree held by the index, with a callback that
answers `ErrSkipDir` on the directories `skip` selects and `nil` otherwise: the
visits are the pre-order listing of the pruned tree, and the result is `nil`. -/
theorem walk_pruned_preorder (fs : VFS σ) (walkFn : WalkFn τ) (skip : DirDoc → Bool) (st : σ)
    (hfn : ∀ c n d f e, (walkFn c n d f e).1 =
      match d with
      | some dir => if skip dir then some Error.ErrSkipDir else none
      | none => none) :
    ∀ (fuel : Nat) (t : Tree) (name : String) (ws : WalkState σ τ),
      t.depth ≤ fuel → Tree.HeldBy fs st t → ws.world.st = st →
      ∃ ws1, walk fs walkFn fuel name t.node ws = some (none, ws1) ∧
        ws1.visits = ws.visits ++ Tree.preorder name (Tree.prune skip t) ∧
        ws1.world.st = st := by
  intro fuel
  induction fuel with
  | zero =>
    intro t name ws hd
    cases t <;> simp [Tree.depth] at hd
  | succ fuel ih =>
    intro t name ws hd hheld hws
    cases t with
    | file f =>
      refine ⟨(ws.call walkFn name none (some f) none).2, ?_, ?_, ?_⟩
      · simp [walk, Tree.node, Node.dir, Node.file, WalkState.call, hfn]
      · simp [WalkState.call, Tree.prune, Tree.preorder]
      · simpa [WalkState.call] using hws
    | dir d cs =>
      by_cases hs : skip d = true
      · refine ⟨(ws.call walkFn name (some d) none none).2, ?_, ?_, ?_⟩
        · simp [walk, Tree.node, Node.dir, Node.file, WalkState.call, hfn, hs]
        · simp [WalkState.call, Tree.prune, Tree.preorder, Tree.preorderList, hs]
        · simpa [WalkState.call] using hws
      · obtain ⟨hiter, hlist⟩ := hheld
        have hdl : Tree.depthList cs ≤ fuel := by
          simp only [Tree.depth] at hd
          omega
        have hheldc : ∀ c ∈ cs, Tree.HeldBy fs st c := by
          clear hiter hdl hd
          induction cs with
          | nil => simp
          | cons x xs ihx =>
            intro c hc
            simp only [List.mem_cons] at hc
            rcases hc with rfl | hc
            · exact hlist.1
            · exact ihx hlist.2 c hc
        obtain ⟨ws1, h1, h2, h3⟩ := walkLoop_children walkFn skip (walk fs walkFn fuel) name st cs
          { (ws.call walkFn name (some d) none none).2 with
            world := (ws.call walkFn name (some d) none none).2.world.log (.DirIterator d) }
          (by simpa [WalkState.call, World.log] using hws)
          (fun c hc n ws0 h0 =>
            ih c n ws0 (Tree.depth_le_of_mem cs fuel hdl c hc) (hheldc c hc) h0)
        refine ⟨ws1, ?_, ?_, h3⟩
        · have hst : (ws.call walkFn name (some d) none none).2.world.st = st := by
            simpa [WalkState.call] using hws
          simp only [walk, Tree.node, Node.dir, Node.file]
          have hcall : ws.call walkFn name (some d) none none =
              (none, (ws.call walkFn name (some d) none none).2) := by
            simp [WalkState.call, hfn, hs]
          rw [hcall]
          simp only [hst, hiter]
          exact h1
        · simp only [h2, Tree.prune, hs, Tree.preorder]
          simp [WalkState.call]

end WalkLemmas


/-- C6: on a tree held by the index, with a callback that always returns `nil`,
`Walk` returns `nil` and its calls of the callback are exactly the pre-order
listing of the tree: one call per node (as many as the tree has directories and
files), a directory before its descendants, the descendants of a child before
the next sibling, each child named by joining the name of its directory with its
`DocName`. -/
theorem Walk_visits_each_node_once_in_preorder {σ τ : Type} (fs : VFS σ) (walkFn : WalkFn τ)
    (t : Tree) (root : String) (ws : WalkState σ τ) (fuel : Nat)
    (hroot : fs.DirOrFileByPath ws.world.st root = .ok t.node)
    (hheld : Tree.HeldBy fs ws.world.st t)
    (hnil : ∀ c n d f e, (walkFn c n d f e).1 = none)
    (hfuel : t.depth ≤ fuel) :
    ∃ ws1, Walk fs walkFn fuel ws root = some (none, ws1) ∧
      ws1.visits = ws.visits ++ Tree.preorder root t ∧
      (Tree.preorder root t).length = t.countDirs + t.countFiles := by
  have hfn : ∀ c n d f e, (walkFn c n d f e).1 =
      match d with
      | some dir => if (fun _ : DirDoc => false) dir then some Error.ErrSkipDir else none
      | none => none := by
    intro c n d f e
    rw [hnil]
    cases d <;> simp
  obtain ⟨ws1, h1, h2, _⟩ := walk_pruned_preorder fs walkFn (fun _ => false) ws.world.st hfn fuel t
    root { ws with world := ws.world.log (.DirOrFileByPath root) } hfuel hheld
    (by simp [World.log])
  refine ⟨ws1, ?_, ?_, Tree.preorder_length root t⟩
  · simp only [Walk, hroot]
    exact h1
  · rw [h2, Tree.prune_never]

/-- C6, witness: the walk of the example tree from `/`. -/
theorem Walk_visits_each_node_once_in_preorder_witness :
    (∃ ws1, Walk exTree.fs countingFn 3 (WalkState.init () 0) "/" = some (none, ws1) ∧
      ws1.visits = (WalkState.init () (0 : Nat)).visits ++ Tree.preorder "/" exTree ∧
      (Tree.preorder "/" exTree).length = exTree.countDirs + exTree.countFiles) ∧
    (Tree.preorder "/" exTree).map Visit.name =
      ["/", "/f1", "/a", "/a/f2", "/a/c", "/b", "/b/f3"] :=
  ⟨Walk_visits_each_node_once_in_preorder exTree.fs countingFn exTree "/" (WalkState.init () 0) 3
      (by rfl)
      (by
        simp only [Tree.HeldBy, Tree.HeldByList, exTree, WalkState.init, World.init]
        exact ⟨rfl, ⟨trivial, ⟨rfl, ⟨trivial, ⟨rfl, trivial⟩, trivial⟩⟩, ⟨rfl, ⟨trivial, trivial⟩⟩,
          trivial⟩⟩)
      (by intro c n d f e; rfl)
      (by decide),
    by decide⟩

/-- C7: on a tree held by the index, with a callback that returns `ErrSkipDir` on
the directories `skip` selects and `nil` on every other node, `Walk` returns
`nil` and its calls of the callback are the pre-order listing of the tree
without the descendants of the selected directories: a selected directory is
visited, none of its descendants is, and the other nodes are visited in the
order and under the names of the walk without skipping. -/
theorem Walk_skip_prunes_subtree {σ τ : Type} (fs : VFS σ) (walkFn : WalkFn τ)
    (skip : DirDoc → Bool) (t : Tree) (root : String) (ws : WalkState σ τ) (fuel : Nat)
    (hroot : fs.DirOrFileByPath ws.world.st root = .ok t.node)
    (hheld : Tree.HeldBy fs ws.world.st t)
    (hfn : ∀ c n d f e, (walkFn c n d f e).1 =
      match d with
      | some dir => if skip dir then some Error.ErrSkipDir else none
      | none => none)
    (hfuel : t.depth ≤ fuel) :
    ∃ ws1, Walk fs walkFn fuel ws root = some (none, ws1) ∧
      ws1.visits = ws.visits ++ Tree.preorder root (Tree.prune skip t) ∧
      List.Sublist (Tree.preorder root (Tree.prune skip t)) (Tree.preorder root t) := by
  obtain ⟨ws1, h1, h2, _⟩ := walk_pruned_preorder fs walkFn skip ws.world.st hfn fuel t
    root { ws with world := ws.world.log (.DirOrFileByPath root) } hfuel hheld
    (by simp [World.log])
  refine ⟨ws1, ?_, h2, Tree.preorder_prune_sublist skip root t⟩
  simp only [Walk, hroot]
  exact h1

/-- C7, witness: the walk of the example tree from `/`, skipping the directory
`a`: `a` is visited, `f2` and `c` below it are not, and its sibling `b` is. -/
theorem Walk_skip_prunes_subtree_witness :
    (∃ ws1, Walk exTree.fs (skippingFn (fun d => d.DocName = "a")) 3 (WalkState.init () ()) "/" =
        some (none, ws1) ∧
      ws1.visits = (WalkState.init () ()).visits ++
        Tree.preorder "/" (Tree.prune (fun d => d.DocName = "a") exTree) ∧
      List.Sublist (Tree.preorder "/" (Tree.prune (fun d => d.DocName = "a") exTree))
        (Tree.preorder "/" exTree)) ∧
    (Tree.preorder "/" (Tree.prune (fun d => d.DocName = "a") exTree)).map Visit.name =
      ["/", "/f1", "/a", "/b", "/b/f3"] :=
  ⟨Walk_skip_prunes_subtree exTree.fs (skippingFn (fun d => d.DocName = "a"))
      (fun d => d.DocName = "a") exTree "/" (WalkState.init () ()) 3
      (by rfl)
      (by
        simp only [Tree.HeldBy, Tree.HeldByList, exTree, WalkState.init, World.init]
        exact ⟨rfl, ⟨trivial, ⟨rfl, ⟨trivial, ⟨rfl, trivial⟩, trivial⟩⟩, ⟨rfl, ⟨trivial, trivial⟩⟩,
          trivial⟩⟩)
      (by intro c n d f e; rfl)
      (by decide),
    by decide⟩

/-! ### `normalizeDocPatch` -/

/-- C11: against a current document with its six fields set, `normalizeDocPatch`
returns `ErrIllegalTime` exactly when the update time of the patch, or that of
the current document when the patch has none, is strictly before the creation
time; otherwise it returns the patch with every field set, to the value of the
patch where it had one and to the value of the current document where it had
none. -/
theorem normalizeDocPatch_fills_unset_fields (name dirID restorePath : String)
    (tags : List String) (updatedAt : Time) (executable : Bool) (patch : DocPatch)
    (cdate : Time) :
    (normalizeDocPatch
        { Name := some name, DirID := some dirID, RestorePath := some restorePath,
          Tags := some tags, UpdatedAt := some updatedAt, Executable := some executable }
        patch cdate = some (.error Error.ErrIllegalTime) ↔
      patch.UpdatedAt.getD updatedAt < cdate) ∧
    normalizeDocPatch
        { Name := some name, DirID := some dirID, RestorePath := some restorePath,
          Tags := some tags, UpdatedAt := some updatedAt, Executable := some executable }
        patch cdate =
      if patch.UpdatedAt.getD updatedAt < cdate then some (.error Error.ErrIllegalTime)
      else
        some (.ok
          { Name := some (patch.Name.getD name)
            DirID := some (patch.DirID.getD dirID)
            RestorePath := some (patch.RestorePath.getD restorePath)
            Tags := some (patch.Tags.getD tags)
            UpdatedAt := some (patch.UpdatedAt.getD updatedAt)
            Executable := some (patch.Executable.getD executable) }) := by
  have key : normalizeDocPatch
        { Name := some name, DirID := some dirID, RestorePath := some restorePath,
          Tags := some tags, UpdatedAt := some updatedAt, Executable := some executable }
        patch cdate =
      if patch.UpdatedAt.getD updatedAt < cdate then some (.error Error.ErrIllegalTime)
      else
        some (.ok
          { Name := some (patch.Name.getD name)
            DirID := some (patch.DirID.getD dirID)
            RestorePath := some (patch.RestorePath.getD restorePath)
            Tags := some (patch.Tags.getD tags)
            UpdatedAt := some (patch.UpdatedAt.getD updatedAt)
            Executable := some (patch.Executable.getD executable) }) := by
    obtain ⟨n, d, r, t, u, e⟩ := patch
    cases n <;> cases d <;> cases r <;> cases t <;> cases u <;> cases e <;>
      simp [normalizeDocPatch]
  refine ⟨?_, key⟩
  rw [key]
  by_cases h : patch.UpdatedAt.getD updatedAt < cdate
  · simp [h]
  · simp [h]

/-- C11, witness: a patch that only renames is completed from the current
document, and a patch dated before the creation is refused. -/
theorem normalizeDocPatch_fills_unset_fields_witness :
    normalizeDocPatch
        { Name := some "old", DirID := some "d", RestorePath := some "", Tags := some ["t"],
          UpdatedAt := some 5, Executable := some false }
        { Name := some "new", DirID := none, RestorePath := none, Tags := none,
          UpdatedAt := none, Executable := none } 5 =
      some (.ok
        { Name := some "new", DirID := some "d", RestorePath := some "", Tags := some ["t"],
          UpdatedAt := some 5, Executable := some false }) ∧
    normalizeDocPatch
        { Name := some "old", DirID := some "d", RestorePath := some "", Tags := some ["t"],
          UpdatedAt := some 5, Executable := some false }
        { Name := none, DirID := none, RestorePath := none, Tags := none,
          UpdatedAt := some 4, Executable := none } 5 =
      some (.error Error.ErrIllegalTime) :=
  ⟨(normalizeDocPatch_fills_unset_fields "old" "d" "" ["t"] 5 false
      { Name := some "new", DirID := none, RestorePath := none, Tags := none,
        UpdatedAt := none, Executable := none } 5).2,
    (normalizeDocPatch_fills_unset_fields "old" "d" "" ["t"] 5 false
      { Name := none, DirID := none, RestorePath := none, Tags := none,
        UpdatedAt := some 4, Executable := none } 5).1.2 (by decide)⟩

/-! ### `uniqueTags` -/

theorem mem_keepFirst (l : List String) : ∀ x, x ∈ keepFirst l ↔ x ∈ l := by
  induction l with
  | nil => simp [keepFirst]
  | cons a t ih =>
    intro x
    simp only [keepFirst, List.mem_cons, List.mem_filter, ih, decide_eq_true_eq]
    by_cases h : x = a <;> simp [h]

theorem nodup_keepFirst (l : List String) : (keepFirst l).Nodup := by
  induction l with
  | nil => simp [keepFirst]
  | cons a t ih =>
    simp only [keepFirst, List.nodup_cons, List.mem_filter, decide_eq_true_eq]
    exact ⟨fun h => h.2 rfl, ih.filter _⟩

/-- The loop of `uniqueTags` from a state in which the set of the tags seen holds
the values of the result so far. -/
theorem uniqueTagsLoop_eq :
    ∀ (tags m clone : List String), (∀ x, x ∈ m ↔ x ∈ clone) →
      uniqueTagsLoop tags m clone =
        clone ++ (keepFirst ((tags.map strings.TrimSpace).filter (fun t => t ≠ ""))).filter
          (fun x => decide (x ∉ clone)) := by
  intro tags
  induction tags with
  | nil => intro m clone _; simp [uniqueTagsLoop, keepFirst]
  | cons tag rest ih =>
    intro m clone hm
    simp only [uniqueTagsLoop, List.map_cons]
    by_cases h1 : (strings.TrimSpace tag).data = []
    · have h1' : strings.TrimSpace tag = "" := (str_eq_empty_iff _).2 h1
      simp only [h1, if_true]
      rw [ih m clone hm, List.filter_cons_of_neg (by simp [h1'])]
    · have h1' : strings.TrimSpace tag ≠ "" := fun e => h1 ((str_eq_empty_iff _).1 e)
      simp only [h1, if_false]
      rw [List.filter_cons_of_pos (by simpa using h1')]
      by_cases h2 : strings.TrimSpace tag ∈ m
      · have h2' : strings.TrimSpace tag ∈ clone := (hm _).1 h2
        simp only [h2, if_true]
        rw [ih m clone hm]
        simp only [keepFirst]
        rw [List.filter_cons_of_neg (by simpa using h2'), List.filter_filter]
        congr 1
        apply List.filter_congr
        intro x _
        by_cases hx : x ∈ clone
        · simp [hx]
        · have : x ≠ strings.TrimSpace tag := fun e => hx (e ▸ h2')
          simp [hx, this]
      · have h2' : strings.TrimSpace tag ∉ clone := fun h => h2 ((hm _).2 h)
        simp only [h2, if_false]
        rw [ih (strings.TrimSpace tag :: m) (clone ++ [strings.TrimSpace tag])
          (by intro x; simp only [List.mem_cons, List.mem_append, List.mem_singleton, hm x]; tauto)]
        simp only [keepFirst]
        rw [List.filter_cons_of_pos (by simpa using h2'), List.filter_filter]
        simp only [List.append_assoc, List.singleton_append]
        congr 2
        apply List.filter_congr
        intro x _
        simp only [List.mem_append, List.mem_singleton, not_or]
        by_cases hx : x ∈ clone <;> by_cases hy : x = strings.TrimSpace tag <;> simp [hx, hy]

namespace strings

theorem TrimSpace_head (s : String) (c : Char) (h : (TrimSpace s).data.head? = some c) :
    IsSpace c = false := by
  obtain ⟨t, ht⟩ : (TrimSpace s).data <+: s.data.dropWhile IsSpace := by
    have hsuf := List.dropWhile_suffix IsSpace (l := (s.data.dropWhile IsSpace).reverse)
    have := List.reverse_prefix.2 hsuf
    simpa [TrimSpace] using this
  cases hd : (TrimSpace s).data with
  | nil => rw [hd] at h; simp at h
  | cons a r =>
    rw [hd] at h ht
    simp only [List.head?_cons, Option.some.injEq] at h
    subst h
    have h2 := List.head?_dropWhile_not IsSpace s.data
    rw [← ht] at h2
    simpa using h2

theorem TrimSpace_last (s : String) (c : Char) (h : (TrimSpace s).data.getLast? = some c) :
    IsSpace c = false := by
  have h2 := List.head?_dropWhile_not IsSpace (s.data.dropWhile IsSpace).reverse
  simp only [TrimSpace, List.getLast?_reverse] at h
  rw [h] at h2
  simpa using h2

end strings

/-- C12: `uniqueTags` equals the reference that trims each tag, drops the tags
that are then empty and keeps the first occurrence of each remaining value, in
the order of the input. Its result has no duplicate, no empty string and no tag
that starts or ends with whitespace, and it holds a value exactly when that
value is the non-empty trimmed form of some input tag.
`uniqueTags([" a", "a", "", "b "])` is `["a", "b"]`. -/
theorem uniqueTags_eq_reference :
    (∀ tags : List String,
      uniqueTags tags = uniqueTagsRef tags ∧
      (uniqueTags tags).Nodup ∧
      "" ∉ uniqueTags tags ∧
      (∀ t ∈ uniqueTags tags,
        (∀ c, t.data.head? = some c → strings.IsSpace c = false) ∧
        (∀ c, t.data.getLast? = some c → strings.IsSpace c = false)) ∧
      (∀ v, v ∈ uniqueTags tags ↔ v ≠ "" ∧ ∃ tag ∈ tags, strings.TrimSpace tag = v)) ∧
    uniqueTags [" a", "a", "", "b "] = ["a", "b"] := by
  refine ⟨?_, by decide⟩
  intro tags
  have heq : uniqueTags tags = uniqueTagsRef tags := by
    unfold uniqueTags uniqueTagsRef
    rw [uniqueTagsLoop_eq tags [] [] (by simp)]
    simp
  have hmem : ∀ v, v ∈ uniqueTags tags ↔ v ≠ "" ∧ ∃ tag ∈ tags, strings.TrimSpace tag = v := by
    intro v
    rw [heq]
    simp only [uniqueTagsRef, mem_keepFirst, List.mem_filter, List.mem_map, decide_eq_true_eq]
    tauto
  refine ⟨heq, ?_, ?_, ?_, hmem⟩
  · rw [heq]
    exact nodup_keepFirst _
  · intro h
    exact ((hmem "").1 h).1 rfl
  · intro t ht
    obtain ⟨_, tag, _, rfl⟩ := (hmem t).1 ht
    exact ⟨fun c hc => strings.TrimSpace_head tag c hc,
      fun c hc => strings.TrimSpace_last tag c hc⟩

/-! ### `ExtractMimeAndClass` -/

namespace strings

theorem take_length_takeWhile (p : Char → Bool) (l : List Char) :
    l.take (l.takeWhile p).length = l.takeWhile p := by
  induction l with
  | nil => rfl
  | cons a t ih => by_cases h : p a <;> simp [List.takeWhile, h, ih]

theorem indexFrom_char (ch : Char) :
    ∀ (l : List Char) (i : Nat), indexFrom [ch] l i =
      if ch ∈ l then ((i + (l.takeWhile (fun c => c ≠ ch)).length : Nat) : Int) else -1 := by
  intro l
  induction l with
  | nil => intro i; simp [indexFrom]
  | cons c cs ih =>
    intro i
    rw [indexFrom]
    by_cases h : ch = c
    · subst h
      simp [List.isPrefixOf]
    · have h1 : (ch == c) = false := by simpa using h
      have h2 : c ≠ ch := fun e => h e.symm
      simp only [List.isPrefixOf, h1, Bool.false_and]
      rw [if_neg (by simp), ih (i + 1)]
      simp only [List.mem_cons, h, false_or]
      by_cases hm : ch ∈ cs
      · simp only [hm, if_true]
        rw [List.takeWhile_cons_of_pos (by simpa using h2)]
        simp only [List.length_cons]
        congr 1
        omega
      · simp [hm]

/-- The part of `s` before the first occurrence of `ch`, all of `s` when it has
none, as the code computes it with `Index` and a slice. -/
theorem sliceTo_Index_char (s : String) (ch : Char) :
    (if Index s ⟨[ch]⟩ ≥ 0 then sliceTo s (Index s ⟨[ch]⟩) else s) =
      ⟨s.data.takeWhile (fun c => c ≠ ch)⟩ := by
  unfold Index
  rw [indexFrom_char]
  by_cases hm : ch ∈ s.data
  · simp only [hm, if_true, zero_add]
    rw [if_pos (by omega)]
    simp only [sliceTo, Int.toNat_ofNat]
    rw [take_length_takeWhile]
  · simp only [hm, if_false]
    rw [if_neg (by omega)]
    have : s.data.takeWhile (fun c => decide (c ≠ ch)) = s.data := by
      rw [List.takeWhile_eq_self_iff]
      intro c hc
      simp only [decide_eq_true_eq]
      rintro rfl
      exact hm hc
    rw [this]

end strings

/-- C13: with `c` the default content type when `contentType` is empty and
`contentType` otherwise, `ExtractMimeAndClass` returns as mime the part of `c`
before its first `;` (all of `c` when it has none) and as class the part of `c`
before its first `/` (all of `c` when it has none); `text/plain; charset=utf-8`
gives `text/plain` and `text`, and the empty string gives
`application/octet-stream` and `application`. -/
theorem ExtractMimeAndClass_splits_at_first_separator :
    (∀ contentType : String,
      ExtractMimeAndClass contentType =
        (⟨(if contentType = "" then DefaultContentType else contentType).data.takeWhile
            (fun ch => ch ≠ ';')⟩,
         ⟨(if contentType = "" then DefaultContentType else contentType).data.takeWhile
            (fun ch => ch ≠ '/')⟩)) ∧
    ExtractMimeAndClass "text/plain; charset=utf-8" = ("text/plain", "text") ∧
    ExtractMimeAndClass "" = ("application/octet-stream", "application") := by
  refine ⟨?_, by decide, by decide⟩
  intro contentType
  have h1 := strings.sliceTo_Index_char
    (if contentType.data = [] then DefaultContentType else contentType) ';'
  have h2 := strings.sliceTo_Index_char
    (if contentType.data = [] then DefaultContentType else contentType) '/'
  simp only [ExtractMimeAndClass, str_eq_empty_iff]
  exact Prod.ext h1 h2

/-! ### `Refine` -/

/-- C14: `Refine` returns the embedded `DirDoc` and no file when the type is the
directory type, no directory and a `FileDoc` with the fifteen fields of the
union when it is the file type, and nothing for every other type; it never
returns both a directory and a file. -/
theorem Refine_returns_at_most_one_document (fd : DirOrFileDoc) :
    (fd.toDirDoc.DocType = consts.DirType → fd.Refine = (some fd.toDirDoc, none)) ∧
    (fd.toDirDoc.DocType = consts.FileType →
      ∃ f : FileDoc, fd.Refine = (none, some f) ∧
        f.DocType = fd.toDirDoc.DocType ∧ f.DocID = fd.toDirDoc.DocID ∧
        f.DocRev = fd.toDirDoc.DocRev ∧ f.DocName = fd.toDirDoc.DocName ∧
        f.DirID = fd.toDirDoc.DirID ∧ f.RestorePath = fd.toDirDoc.RestorePath ∧
        f.CreatedAt = fd.toDirDoc.CreatedAt ∧ f.UpdatedAt = fd.toDirDoc.UpdatedAt ∧
        f.Tags = fd.toDirDoc.Tags ∧ f.ByteSize = fd.ByteSize ∧ f.MD5Sum = fd.MD5Sum ∧
        f.Mime = fd.Mime ∧ f.Class = fd.Class ∧ f.Executable = fd.Executable ∧
        f.Metadata = fd.Metadata) ∧
    (fd.toDirDoc.DocType ≠ consts.DirType → fd.toDirDoc.DocType ≠ consts.FileType →
      fd.Refine = (none, none)) ∧
    ¬ (fd.Refine.1.isSome = true ∧ fd.Refine.2.isSome = true) := by
  have hne : consts.FileType ≠ consts.DirType := by decide
  refine ⟨?_, ?_, ?_, ?_⟩
  · intro h
    simp [DirOrFileDoc.Refine, h]
  · intro h
    have h' : fd.toDirDoc.DocType ≠ consts.DirType := by rw [h]; exact hne
    have hR : fd.Refine = (none, some
        { DocType := fd.toDirDoc.DocType, DocID := fd.toDirDoc.DocID,
          DocRev := fd.toDirDoc.DocRev, DocName := fd.toDirDoc.DocName,
          DirID := fd.toDirDoc.DirID, RestorePath := fd.toDirDoc.RestorePath,
          CreatedAt := fd.toDirDoc.CreatedAt, UpdatedAt := fd.toDirDoc.UpdatedAt,
          ByteSize := fd.ByteSize, MD5Sum := fd.MD5Sum, Mime := fd.Mime, Class := fd.Class,
          Executable := fd.Executable, Tags := fd.toDirDoc.Tags, Metadata := fd.Metadata }) := by
      simp only [DirOrFileDoc.Refine, h, hne, if_false, if_true]
    exact ⟨_, hR, rfl, rfl, rfl, rfl, rfl, rfl, rfl, rfl, rfl, rfl, rfl, rfl, rfl, rfl, rfl⟩
  · intro h1 h2
    simp [DirOrFileDoc.Refine, h1, h2]
  · unfold DirOrFileDoc.Refine
    split
    · simp
    · split <;> simp

/-- C14, witness: a union of the directory type, one of the file type and one of
another type. -/
theorem Refine_returns_at_most_one_document_witness :
    (exUnion consts.DirType).Refine = (some (exUnion consts.DirType).toDirDoc, none) ∧
    (∃ f : FileDoc, (exUnion consts.FileType).Refine = (none, some f) ∧ f.ByteSize = 7 ∧
      f.DocName = "u") ∧
    (exUnion "io.cozy.notes").Refine = (none, none) :=
  ⟨(Refine_returns_at_most_one_document (exUnion consts.DirType)).1 (by rfl),
    (by
      obtain ⟨f, h⟩ := (Refine_returns_at_most_one_document (exUnion consts.FileType)).2.1 (by rfl)
      exact ⟨f, h.1, h.2.2.2.2.2.2.2.2.2.2.1, h.2.2.2.2.1⟩),
    (Refine_returns_at_most_one_document (exUnion "io.cozy.notes")).2.2.1 (by decide) (by decide)⟩

/-! ### `Exists` and `DirExists` -/

/-- C16: `Exists`, probing `DirOrFileByPath`, and `DirExists`, probing
`DirByPath`, return `(true, nil)` when the lookup succeeds, `(false, nil)` when
it fails with a not-exist error and `(false, err)` with the error of the lookup
when it fails with any other error; they make that one lookup and leave the
backend state as it was. -/
theorem Exists_and_DirExists_translate_not_exist {σ : Type} (fs : VFS σ) (w : World σ)
    (name : String) :
    (∀ n, fs.DirOrFileByPath w.st name = .ok n →
      Exists fs w name = (.ok true, { w with trace := w.trace ++ [Call.DirOrFileByPath name] })) ∧
    (∀ err, fs.DirOrFileByPath w.st name = .error err → os.IsNotExist err = true →
      Exists fs w name = (.ok false, { w with trace := w.trace ++ [Call.DirOrFileByPath name] })) ∧
    (∀ err, fs.DirOrFileByPath w.st name = .error err → os.IsNotExist err = false →
      Exists fs w name = (.error err, { w with trace := w.trace ++ [Call.DirOrFileByPath name] })) ∧
    (∀ d, fs.DirByPath w.st name = .ok d →
      DirExists fs w name = (.ok true, { w with trace := w.trace ++ [Call.DirByPath name] })) ∧
    (∀ err, fs.DirByPath w.st name = .error err → os.IsNotExist err = true →
      DirExists fs w name = (.ok false, { w with trace := w.trace ++ [Call.DirByPath name] })) ∧
    (∀ err, fs.DirByPath w.st name = .error err → os.IsNotExist err = false →
      DirExists fs w name = (.error err, { w with trace := w.trace ++ [Call.DirByPath name] })) := by
  refine ⟨?_, ?_, ?_, ?_, ?_, ?_⟩
  · intro n h
    simp [Exists, h, World.log]
  · intro err h hn
    simp [Exists, h, hn, World.log]
  · intro err h hn
    simp [Exists, h, hn, World.log]
  · intro d h
    simp [DirExists, h, World.log]
  · intro err h hn
    simp [DirExists, h, hn, World.log]
  · intro err h hn
    simp [DirExists, h, hn, World.log]

/-- C16, witness: a path that resolves, one that does not exist, and a lookup
that fails with another error. -/
theorem Exists_and_DirExists_translate_not_exist_witness :
    Exists (Mem.fs false) (World.init memOneFile) "/f" =
      (.ok true, { World.init memOneFile with trace := [] ++ [Call.DirOrFileByPath "/f"] }) ∧
    DirExists (Mem.fs false) (World.init memOneFile) "/f" =
      (.ok false, { World.init memOneFile with trace := [] ++ [Call.DirByPath "/f"] }) ∧
    Exists brokenFs (World.init ()) "/f" =
      (.error (Error.backend 5 false),
        { World.init () with trace := [] ++ [Call.DirOrFileByPath "/f"] }) :=
  ⟨(Exists_and_DirExists_translate_not_exist (Mem.fs false) (World.init memOneFile) "/f").1 _
      (by rfl),
    (Exists_and_DirExists_translate_not_exist (Mem.fs false) (World.init memOneFile)
      "/f").2.2.2.2.1 _ (by rfl) (by rfl),
    (Exists_and_DirExists_translate_not_exist brokenFs (World.init ()) "/f").2.2.1 _
      (by rfl) (by rfl)⟩

/-! ### `Mkdir` -/

/-- C15 (amended): when the cleaned name is `/`, `Mkdir` returns
`ErrParentDoesNotExist` and leaves the world as it was. Otherwise, with `p` the
cleaned name, it looks up `path.Dir(p)`; an error of the lookup is returned as it
is, with no other call; so is an error of the construction of the document;
when both succeed the document is named `path.Base(p)`, has the directory found
as parent and the trimmed, de-duplicated tags, and `Mkdir` makes exactly one
`CreateDir` call, on that document, and returns what it returns: the document
as the backend left it, or the error of the backend. -/
theorem Mkdir_root_fails_else_creates_under_parent {σ : Type} (fs : VFS σ)
    (clock : Nat → Time) (w : World σ) (name : String) (tags : List String) :
    (path.Clean name = "/" →
      Mkdir fs clock w name tags = (.error Error.ErrParentDoesNotExist, w)) ∧
    (path.Clean name ≠ "/" →
      (∀ err, fs.DirByPath w.st (path.Dir (path.Clean name)) = .error err →
        Mkdir fs clock w name tags =
          (.error err,
            { w with trace := w.trace ++ [Call.DirByPath (path.Dir (path.Clean name))] })) ∧
      (∀ parent err, fs.DirByPath w.st (path.Dir (path.Clean name)) = .ok parent →
        NewDirDocWithParent (clock w.ticks) (path.Base (path.Clean name)) parent tags =
          .error err →
        Mkdir fs clock w name tags =
          (.error err,
            { w with
              trace := w.trace ++ [Call.DirByPath (path.Dir (path.Clean name))]
              ticks := w.ticks + 1 })) ∧
      (∀ parent dir, fs.DirByPath w.st (path.Dir (path.Clean name)) = .ok parent →
        NewDirDocWithParent (clock w.ticks) (path.Base (path.Clean name)) parent tags =
          .ok dir →
        dir.DocName = path.Base (path.Clean name) ∧ dir.DirID = parent.ID ∧
        dir.Tags = uniqueTags tags ∧
        Mkdir fs clock w name tags =
          ((fs.CreateDir w.st dir).1,
            { st := (fs.CreateDir w.st dir).2
              trace := w.trace ++ [Call.DirByPath (path.Dir (path.Clean name)),
                Call.CreateDir dir]
              ticks := w.ticks + 1 }))) := by
  refine ⟨?_, ?_⟩
  · intro h
    simp [Mkdir, h]
  · intro h
    refine ⟨?_, ?_, ?_⟩
    · intro err h1
      simp [Mkdir, h, h1, World.log]
    · intro parent err h1 h2
      simp [Mkdir, h, h1, h2, World.log, World.now]
    · intro parent dir h1 h2
      have hdoc : dir.DocName = path.Base (path.Clean name) ∧ dir.DirID = parent.ID ∧
          dir.Tags = uniqueTags tags := by
        unfold NewDirDocWithParent at h2
        split at h2
        · simp at h2
        · simp only [Except.ok.injEq] at h2
          subst h2
          exact ⟨rfl, rfl, rfl⟩
      refine ⟨hdoc.1, hdoc.2.1, hdoc.2.2, ?_⟩
      simp only [Mkdir, h, if_false, h1, World.now, World.log, h2]
      cases hc : fs.CreateDir w.st dir with
      | mk r st =>
        cases r <;> simp

/-- C15, witness: `Mkdir("/a/..")` is refused without a call, and `Mkdir("/a")`
on a store holding only the root creates `a` under the root with one `CreateDir`
call and returns it. -/
theorem Mkdir_root_fails_else_creates_under_parent_witness :
    Mkdir (Mem.fs false) tickClock (World.init memRoot) "/a/.." [] =
      (.error Error.ErrParentDoesNotExist, World.init memRoot) ∧
    ((Mkdir (Mem.fs false) tickClock (World.init memRoot) "/a" ["x"]).1.toOption.map
        (fun d => (d.DocName, d.DirID, d.Tags)) = some ("a", "root-id", ["x"]) ∧
      ((Mkdir (Mem.fs false) tickClock (World.init memRoot) "/a" ["x"]).2.trace.filter
        Call.isCreateDir).length = 1) :=
  ⟨(Mkdir_root_fails_else_creates_under_parent (Mem.fs false) tickClock (World.init memRoot)
      "/a/.." []).1 (by decide),
    by
      have h := ((Mkdir_root_fails_else_creates_under_parent (Mem.fs false) tickClock
        (World.init memRoot) "/a" ["x"]).2 (by decide)).2.2 exRoot _ (by rfl) (by rfl)
      rw [h.2.2.2]
      exact ⟨by rfl, by rfl⟩⟩

/-- C15, counterexample: on a read-only store holding only the root, `/a` is not
the root, its parent `/` is found and the document is built, and `Mkdir` makes
its one `CreateDir` call and returns the error of the backend, not the
directory. -/
theorem Mkdir_returns_error_of_CreateDir :
    path.Clean "/a" ≠ "/" ∧
    (Mem.fs true).DirByPath memRoot (path.Dir (path.Clean "/a")) = .ok exRoot ∧
    (NewDirDocWithParent (tickClock 0) (path.Base (path.Clean "/a")) exRoot []).toOption.isSome
      = true ∧
    (Mkdir (Mem.fs true) tickClock (World.init memRoot) "/a" []).1 =
      .error (Error.backend 30 false) ∧
    ((Mkdir (Mem.fs true) tickClock (World.init memRoot) "/a" []).2.trace.filter
      Call.isCreateDir).length = 1 := by
  refine ⟨by decide, by rfl, by rfl, by rfl, by rfl⟩

/-! ### The document `OpenFile` builds -/

/-- The document `OpenFile` builds for a file named by the last element of the
cleaned path `p` under the parent `dirID`: what `NewFileDoc` answers on a legal
name. -/
theorem NewFileDoc_of_legal (filename dirID mime cls : String) (now : Time)
    (h : checkFileName filename = none) :
    ∃ newdoc, NewFileDoc filename dirID (-1) [] mime cls now false [] = .ok newdoc ∧
      newdoc.DocName = filename ∧ newdoc.DirID = dirID ∧ newdoc.ByteSize = -1 ∧
      newdoc.Mime = mime ∧ newdoc.Class = cls := by
  simp [NewFileDoc, h]

/-- C19 (amended): for a flag that passes the flag checks and is not `O_RDONLY`,
with `p` the cleaned name and, where a document is built, `path.Base(p)` a legal
file name: when a file exists at `p` with a non-empty `DirID`, `OpenFile` builds
a document named
`path.Base(p)`, with the MIME type and class of that name's extension, declared
byte size -1 and the `DirID` of the existing document, and calls
`CreateFile(newdoc, olddoc)` with the existing document; when the lookup of `p`
reports not-exist, `O_CREATE` is set and `path.Dir(p)` is a directory with a
non-empty identifier, it builds the same document with that identifier as
`DirID` and calls `CreateFile(newdoc, nil)`; in both cases it returns what
`CreateFile` returns. When the lookup of `p` fails and `O_CREATE` is not set,
the error of the lookup is returned and no other call is made. -/
theorem OpenFile_builds_document_of_undeclared_size {σ : Type} (fs : VFS σ)
    (TypeByExtension : String → String) (clock : Nat → Time) (w : World σ) (name : String)
    (flag : Int) (perm : Nat)
    (h1 : ¬ (os.band flag os.O_RDWR ≠ 0 ∨ os.band flag os.O_APPEND ≠ 0))
    (h2 : ¬ (os.band flag os.O_CREATE ≠ 0 ∧ os.band flag os.O_EXCL = 0))
    (h3 : flag ≠ (os.O_RDONLY : Int)) :
    (∀ olddoc, fs.FileByPath w.st (path.Clean name) = .ok olddoc → olddoc.DirID ≠ "" →
      checkFileName (path.Base (path.Clean name)) = none →
      ∃ newdoc : FileDoc,
        newdoc.DocName = path.Base (path.Clean name) ∧
        newdoc.DirID = olddoc.DirID ∧
        newdoc.ByteSize = -1 ∧
        (newdoc.Mime, newdoc.Class) =
          ExtractMimeAndClassFromFilename TypeByExtension (path.Base (path.Clean name)) ∧
        OpenFile fs TypeByExtension clock w name flag perm =
          ((fs.CreateFile w.st newdoc (some olddoc)).1,
            { st := (fs.CreateFile w.st newdoc (some olddoc)).2
              trace := w.trace ++ [Call.FileByPath (path.Clean name),
                Call.CreateFile newdoc (some olddoc)]
              ticks := w.ticks + 1 })) ∧
    (∀ err parent, fs.FileByPath w.st (path.Clean name) = .error err →
      os.IsNotExist err = true → os.band flag os.O_CREATE ≠ 0 →
      fs.DirByPath w.st (path.Dir (path.Clean name)) = .ok parent → parent.ID ≠ "" →
      checkFileName (path.Base (path.Clean name)) = none →
      ∃ newdoc : FileDoc,
        newdoc.DocName = path.Base (path.Clean name) ∧
        newdoc.DirID = parent.ID ∧
        newdoc.ByteSize = -1 ∧
        (newdoc.Mime, newdoc.Class) =
          ExtractMimeAndClassFromFilename TypeByExtension (path.Base (path.Clean name)) ∧
        OpenFile fs TypeByExtension clock w name flag perm =
          ((fs.CreateFile w.st newdoc none).1,
            { st := (fs.CreateFile w.st newdoc none).2
              trace := w.trace ++ [Call.FileByPath (path.Clean name),
                Call.DirByPath (path.Dir (path.Clean name)), Call.CreateFile newdoc none]
              ticks := w.ticks + 1 })) ∧
    (∀ err, fs.FileByPath w.st (path.Clean name) = .error err →
      os.band flag os.O_CREATE = 0 →
      OpenFile fs TypeByExtension clock w name flag perm =
        (.error err, { w with trace := w.trace ++ [Call.FileByPath (path.Clean name)] })) := by
  refine ⟨?_, ?_, ?_⟩
  · intro olddoc hf hd hlegal
    obtain ⟨newdoc, hn, e1, e2, e3, e4, e5⟩ := NewFileDoc_of_legal (path.Base (path.Clean name))
      olddoc.DirID (ExtractMimeAndClassFromFilename TypeByExtension (path.Base (path.Clean name))).1
      (ExtractMimeAndClassFromFilename TypeByExtension (path.Base (path.Clean name))).2
      (clock w.ticks) hlegal
    refine ⟨newdoc, e1, e2, e3, by rw [e4, e5], ?_⟩
    unfold OpenFile
    rw [if_neg h1, if_neg h2]
    simp only [h3, if_false, hf, OpenFile.build, hd, World.now, World.log, hn]
    simp
  · intro err parent hf hne hc hp hid hlegal
    obtain ⟨newdoc, hn, e1, e2, e3, e4, e5⟩ := NewFileDoc_of_legal (path.Base (path.Clean name))
      parent.ID (ExtractMimeAndClassFromFilename TypeByExtension (path.Base (path.Clean name))).1
      (ExtractMimeAndClassFromFilename TypeByExtension (path.Base (path.Clean name))).2
      (clock w.ticks) hlegal
    refine ⟨newdoc, e1, e2, e3, by rw [e4, e5], ?_⟩
    unfold OpenFile
    rw [if_neg h1, if_neg h2]
    simp only [h3, if_false, hf, hne, hc, ne_eq, not_false_eq_true, and_self,
      if_true, hp, OpenFile.build, hid, World.now, World.log, hn]
    simp
  · intro err hf hc
    unfold OpenFile
    rw [if_neg h1, if_neg h2]
    simp [h3, hf, hc, World.log]

/-- C19, witness: `Create("/new.txt")` on a store holding only the root. -/
theorem OpenFile_builds_document_of_undeclared_size_witness :
    ∃ newdoc : FileDoc,
      newdoc.DocName = path.Base (path.Clean "/new.txt") ∧
      newdoc.DirID = exRoot.ID ∧
      newdoc.ByteSize = -1 ∧
      (newdoc.Mime, newdoc.Class) =
        ExtractMimeAndClassFromFilename noMime (path.Base (path.Clean "/new.txt")) ∧
      OpenFile (Mem.fs false) noMime tickClock (World.init memRoot) "/new.txt" 193 420 =
        (((Mem.fs false).CreateFile (World.init memRoot).st newdoc none).1,
          { st := ((Mem.fs false).CreateFile (World.init memRoot).st newdoc none).2
            trace := (World.init memRoot).trace ++ [Call.FileByPath (path.Clean "/new.txt"),
              Call.DirByPath (path.Dir (path.Clean "/new.txt")), Call.CreateFile newdoc none]
            ticks := (World.init memRoot).ticks + 1 }) :=
  (OpenFile_builds_document_of_undeclared_size (Mem.fs false) noMime tickClock
    (World.init memRoot) "/new.txt" 193 420 (by decide) (by decide)
    (by decide)).2.1 Error.ErrNotExist exRoot (by rfl) (by rfl) (by decide) (by rfl) (by decide)
    (by decide)

/-- C19, counterexample: `Create("/new.txt")` on a store holding only the root,
where no file exists at the path and creation is requested, hands `CreateFile` a
new document whose declared byte size is -1, not 0. -/
theorem OpenFile_declares_size_minus_one :
    (Mem.fs false).FileByPath memRoot (path.Clean "/new.txt") = .error Error.ErrNotExist ∧
    (Create (Mem.fs false) noMime tickClock (World.init memRoot) "/new.txt").2.trace.filterMap
        (fun c =>
          match c with
          | .CreateFile newdoc olddoc => some (newdoc.DocName, newdoc.ByteSize, olddoc)
          | _ => none) =
      [("new.txt", -1, none)] := by
  refine ⟨by rfl, by rfl⟩

/-! ### Cleaning of the path arguments -/

/-- C17, the code at the failing inputs: `Stat` passes its argument to the index
as it is, so `/a/../b/`, whose cleaned form is `/b`, is looked up as
`/a/../b/`; `MkdirAll` probes its argument as it is, so on a store holding only
the root `/a/b/` yields three `CreateDir` calls, for `/a`, `/a/b` and `/a/b/b`,
where `/a/b`, of the same cleaned form, yields two. -/
theorem Stat_and_MkdirAll_use_uncleaned_path :
    path.Clean "/a/../b/" = "/b" ∧
    (Stat (Mem.fs false) (World.init memRoot) "/a/../b/").2.trace =
      [Call.DirOrFileByPath "/a/../b/"] ∧
    path.Clean "/a/b/" = path.Clean "/a/b" ∧
    (MkdirAll (Mem.fs false) tickClock 10 (World.init memRoot) "/a/b/" []).map
        (fun r => (r.2.trace.filter Call.isCreateDir).map (fun c =>
          match c with
          | .CreateDir d => d.Fullpath
          | _ => "")) =
      some ["/a", "/a/b", "/a/b/b"] ∧
    (MkdirAll (Mem.fs false) tickClock 10 (World.init memRoot) "/a/b" []).map
        (fun r => (r.2.trace.filter Call.isCreateDir).map (fun c =>
          match c with
          | .CreateDir d => d.Fullpath
          | _ => "")) =
      some ["/a", "/a/b"] := by
  refine ⟨by decide, by rfl, by decide, by rfl, by rfl⟩

/-! ### `ErrSkipDir` -/

/-- C18, the code at the failing inputs: with a callback that returns
`ErrSkipDir`, `Walk` returns `ErrSkipDir` when the root is a file, and when the
root does not resolve and the callback is handed the error of the lookup. -/
theorem Walk_returns_ErrSkipDir :
    (Walk exFileTree.fs alwaysSkipFn 5 (WalkState.init () ()) "/f").map (fun r => r.1) =
      some (some Error.ErrSkipDir) ∧
    (Walk voidFs alwaysSkipFn 5 (WalkState.init () ()) "/f").map (fun r => r.1) =
      some (some Error.ErrSkipDir) := by
  refine ⟨by rfl, by rfl⟩

/-! ### Termination of `MkdirAll` -/

theorem MkdirAll.probe_voidFs :
    ∀ (fuel : Nat) (w : World Unit) (base : String) (dirs : List String),
      MkdirAll.probe voidFs fuel w base dirs = none := by
  intro fuel
  induction fuel with
  | zero => intro w base dirs; rfl
  | succ n ih =>
    intro w base dirs
    simp only [MkdirAll.probe, voidFs, os.IsNotExist, if_true]
    exact ih _ _ _

/-- C20, the code at the failing input: on an index that reports not-exist for
every path, the probe of `/` is followed by the probe of `path.Dir("/")`, that is
of `/` again, and `MkdirAll` does not return, whatever the path and however long
it runs. -/
theorem MkdirAll_never_returns_without_root :
    path.Dir "/" = "/" ∧
    ∀ (fuel : Nat) (name : String) (tags : List String),
      MkdirAll voidFs tickClock fuel (World.init ()) name tags = none := by
  refine ⟨by decide, ?_⟩
  intro fuel name tags
  simp [MkdirAll, MkdirAll.probe_voidFs]

/-! ### The tags of `MkdirAll` and `Mkdir` -/

section TagsLemmas

variable {σ : Type}

/-- The first loop of `MkdirAll` only makes `DirByPath` calls. -/
theorem MkdirAll.probe_calls (fs : VFS σ) :
    ∀ (fuel : Nat) (w : World σ) (base : String) (dirs : List String)
      (r : Except Error (DirDoc × List String)) (w1 : World σ),
      MkdirAll.probe fs fuel w base dirs = some (r, w1) →
      ∃ calls, w1.trace = w.trace ++ calls ∧ ∀ d, Call.CreateDir d ∉ calls := by
  intro fuel
  induction fuel with
  | zero => intro w base dirs r w1 h; simp [MkdirAll.probe] at h
  | succ n ih =>
    intro w base dirs r w1 h
    simp only [MkdirAll.probe] at h
    cases hl : fs.DirByPath w.st base with
    | ok parent =>
      simp only [hl, Option.some.injEq, Prod.mk.injEq] at h
      refine ⟨[Call.DirByPath base], ?_, by simp⟩
      rw [← h.2]
      rfl
    | error err =>
      simp only [hl] at h
      by_cases hn : os.IsNotExist err = true
      · simp only [hn, if_true] at h
        obtain ⟨calls, h1, h2⟩ := ih _ _ _ _ _ h
        refine ⟨Call.DirByPath base :: calls, ?_, ?_⟩
        · rw [h1]
          simp [World.log]
        · intro d hd
          simp only [List.mem_cons] at hd
          rcases hd with hd | hd
          · cases hd
          · exact h2 d hd
      · have hn' : os.IsNotExist err = false := by simpa using hn
        simp only [hn', Bool.false_eq_true, if_false, Option.some.injEq, Prod.mk.injEq] at h
        refine ⟨[Call.DirByPath base], ?_, by simp⟩
        rw [← h.2]
        rfl

/-- The second loop of `MkdirAll` only makes `CreateDir` calls, each on a
document built by `NewDirDocWithParent` with `nil` tags. -/
theorem MkdirAll.create_calls (fs : VFS σ) (clock : Nat → Time) :
    ∀ (segs : List String) (parent : DirDoc) (w : World σ),
      ∃ calls, (MkdirAll.create fs clock segs parent w).2.trace = w.trace ++ calls ∧
        ∀ c ∈ calls, ∃ d, c = Call.CreateDir d ∧
          ∃ now name par, NewDirDocWithParent now name par [] = .ok d := by
  intro segs
  induction segs with
  | nil => intro parent w; exact ⟨[], by simp [MkdirAll.create], by simp⟩
  | cons s ss ih =>
    intro parent w
    simp only [MkdirAll.create, World.now]
    cases hn : NewDirDocWithParent (clock w.ticks) s parent [] with
    | error err => exact ⟨[], by simp, by simp⟩
    | ok dir =>
      simp only []
      cases hc : fs.CreateDir w.st dir with
      | mk r st =>
        cases r with
        | error err =>
          refine ⟨[Call.CreateDir dir], by simp [World.log], ?_⟩
          intro c hc'
          simp only [List.mem_singleton] at hc'
          exact ⟨dir, hc', _, _, _, hn⟩
        | ok dir1 =>
          simp only []
          obtain ⟨calls, h1, h2⟩ := ih dir1
            { st := st, trace := w.trace ++ [Call.CreateDir dir], ticks := w.ticks + 1 }
          refine ⟨Call.CreateDir dir :: calls, ?_, ?_⟩
          · simp only [World.log] at h1 ⊢
            rw [h1]
            simp
          · intro c hc'
            simp only [List.mem_cons] at hc'
            rcases hc' with rfl | hc'
            · exact ⟨dir, rfl, _, _, _, hn⟩
            · exact h2 c hc'

theorem NewDirDocWithParent_tags (now : Time) (name : String) (parent d : DirDoc)
    (tags : List String) (h : NewDirDocWithParent now name parent tags = .ok d) :
    d.Tags = uniqueTags tags := by
  unfold NewDirDocWithParent at h
  split at h
  · simp at h
  · simp only [Except.ok.injEq] at h
    subst h
    rfl

end TagsLemmas

/-- C21: `MkdirAll` gives the same result and makes the same calls whatever its
tags argument, and every document it hands to `CreateDir` was built by
`NewDirDocWithParent` with `nil` tags and has no tags; `Mkdir` hands `CreateDir`
a document built by `NewDirDocWithParent` with its tags argument, which carries
those tags, trimmed and without duplicates. -/
theorem MkdirAll_ignores_tags {σ : Type} (fs : VFS σ) (clock : Nat → Time) (fuel : Nat)
    (w : World σ) (p : String) (t1 t2 : List String) :
    MkdirAll fs clock fuel w p t1 = MkdirAll fs clock fuel w p t2 ∧
    (∀ r w1, MkdirAll fs clock fuel w p t1 = some (r, w1) →
      ∃ calls, w1.trace = w.trace ++ calls ∧
        ∀ d, Call.CreateDir d ∈ calls →
          (∃ now name par, NewDirDocWithParent now name par [] = .ok d) ∧ d.Tags = []) ∧
    (∃ calls, (Mkdir fs clock w p t1).2.trace = w.trace ++ calls ∧
      ∀ d, Call.CreateDir d ∈ calls →
        (∃ now name par, NewDirDocWithParent now name par t1 = .ok d) ∧
        d.Tags = uniqueTags t1) := by
  refine ⟨rfl, ?_, ?_⟩
  · intro r w1 h
    simp only [MkdirAll] at h
    cases hp : MkdirAll.probe fs fuel w p [] with
    | none => simp [hp] at h
    | some res =>
      obtain ⟨pr, wp⟩ := res
      obtain ⟨calls1, hc1, hno⟩ := MkdirAll.probe_calls fs fuel w p [] pr wp hp
      cases pr with
      | error err =>
        simp only [hp, Option.some.injEq, Prod.mk.injEq] at h
        refine ⟨calls1, by rw [← h.2, hc1], ?_⟩
        intro d hd
        exact absurd hd (hno d)
      | ok found =>
        obtain ⟨parent, dirs⟩ := found
        simp only [hp, Option.some.injEq] at h
        obtain ⟨calls2, hc2, hall⟩ := MkdirAll.create_calls fs clock dirs.reverse parent wp
        rw [h] at hc2
        have hc2' : w1.trace = wp.trace ++ calls2 := hc2
        refine ⟨calls1 ++ calls2, by rw [hc2', hc1, List.append_assoc], ?_⟩
        intro d hd
        rcases List.mem_append.1 hd with hd | hd
        · exact absurd hd (hno d)
        · obtain ⟨d1, e, now, name, par, hnew⟩ := hall _ hd
          cases e
          exact ⟨⟨now, name, par, hnew⟩, NewDirDocWithParent_tags now name par d [] hnew⟩
  · unfold Mkdir
    by_cases hroot : path.Clean p = "/"
    · exact ⟨[], by simp [hroot], by simp⟩
    · simp only [hroot, if_false]
      cases hl : fs.DirByPath w.st (path.Dir (path.Clean p)) with
      | error err => exact ⟨[Call.DirByPath (path.Dir (path.Clean p))], by simp [World.log], by simp⟩
      | ok parent =>
        simp only [World.now]
        cases hn : NewDirDocWithParent (clock w.ticks) (path.Base (path.Clean p)) parent t1 with
        | error err =>
          exact ⟨[Call.DirByPath (path.Dir (path.Clean p))], by simp [World.log, hn], by simp⟩
        | ok dir =>
          refine ⟨[Call.DirByPath (path.Dir (path.Clean p)), Call.CreateDir dir], ?_, ?_⟩
          · cases hc : fs.CreateDir w.st dir with
            | mk r st => cases r <;> simp [World.log, hn, hc]
          · intro d hd
            simp only [List.mem_cons, List.mem_singleton, List.not_mem_nil, or_false] at hd
            rcases hd with hd | hd
            · cases hd
            · cases hd
              exact ⟨⟨_, _, _, hn⟩, NewDirDocWithParent_tags _ _ _ _ _ hn⟩

/-- C21, witness: on a store holding only the root, `MkdirAll("/a")` with the
tag `x` and with no tag do the same, the directory created has no tags, and
`Mkdir("/a")` with the tag `x` creates a directory tagged `x`. -/
theorem MkdirAll_ignores_tags_witness :
    MkdirAll (Mem.fs false) tickClock 4 (World.init memRoot) "/a" ["x"] =
      MkdirAll (Mem.fs false) tickClock 4 (World.init memRoot) "/a" [] ∧
    (MkdirAll (Mem.fs false) tickClock 4 (World.init memRoot) "/a" ["x"]).map
        (fun r => r.2.trace.filterMap (fun c =>
          match c with
          | .CreateDir d => some (d.DocName, d.Tags)
          | _ => none)) =
      some [("a", [])] ∧
    (Mkdir (Mem.fs false) tickClock (World.init memRoot) "/a" ["x"]).2.trace.filterMap
        (fun c =>
          match c with
          | .CreateDir d => some (d.DocName, d.Tags)
          | _ => none) =
      [("a", ["x"])] :=
  ⟨(MkdirAll_ignores_tags (Mem.fs false) tickClock 4 (World.init memRoot) "/a" ["x"] []).1,
    by rfl, by rfl⟩

end CozyVfs
